import Mathlib

/-!
Verification of the kd-tree implementation in `src/kdtree.h` (namespace `kdt`,
class `KDTree<PointT>`) against its natural-language specification.

Modelling conventions (shallow embedding):

* A point (`PointT`) is a `List ℚ`; `PointT::DIM` becomes an explicit
  parameter `D`, and `operator[]` becomes `coord` (reads past the end give 0,
  which never happens on well-formed inputs).  Coordinates are exact
  rationals: the spec and the claims are about the algorithm's real-number
  behaviour, not about floating-point rounding.
* The C++ code compares Euclidean distances `sqrt (Σ (pᵢ-qᵢ)²)` and axis gaps
  `fabs (q[axis]-t[axis])` — all of them non-negative.  Since `x ↦ x²` is
  strictly monotone on non-negatives, every comparison in the code is
  reproduced exactly by comparing the squares; the embedding therefore stores
  squared distances (`distanceSq`) and squares both sides of each comparison.
  The comparison `dist < range` (with `dist ≥ 0` but `range` a caller-supplied
  real of arbitrary sign) is encoded sign-correctly as
  `dist² < range² ∧ 0 < range`.
* `std::nth_element` with the strict axis comparator is modelled by fully
  sorting the index range with a stable insertion sort by axis coordinate: a
  fully sorted range is one of the conforming outcomes of `nth_element` (the
  element at `mid` is one that a sort may put there, nothing before it is
  greater on the axis, nothing after it is smaller).
* The C++ build recursion terminates because `npoints` strictly decreases;
  `buildNpoints` makes that explicit as a structurally decreasing first
  argument (the `npoints` of the C++ signature, always instantiated with the
  length of the index range), so that all definitions compute by kernel
  reduction.
* `double minDist = std::numeric_limits<double>::max()` together with the
  uninitialised `int guess` of `nnSearch` are modelled as the state
  `Option (ℕ × ℚ)`, `none` meaning "guess still uninitialised, minDist still
  at its sentinel": every genuine squared distance compares below it.
* `BoundedPriorityQueue<std::pair<double,int>>::back()` calls
  `std::vector::back`, which has undefined behaviour on an empty vector; the
  embedding surfaces that as `Option`, `none` marking the
  undefined-behaviour path, and `knnSearchRecursive` propagates it.
* The C++ searches read `node->next[dir]` and `node->next[!dir]` with
  `dir = query[axis] < train[axis] ? 0 : 1`; the embedding spells out the two
  values of `dir` as the two branches of an `if`, so the recursion is
  structural in the tree.
-/

namespace kdt

/-- Coordinate access `p[i]` of a point; out-of-range reads (which do not
occur on well-formed inputs) give 0. -/
def coord (p : List ℚ) (i : ℕ) : ℚ := p.getD i 0

/-- The point `points_[idx]` of the owned point array. -/
def pointAt (ps : List (List ℚ)) (idx : ℕ) : List ℚ := ps.getD idx []

/-- Axis coordinate of the point stored at index `j`: `points_[j][axis]`. -/
def axisKey (ps : List (List ℚ)) (axis : ℕ) (j : ℕ) : ℚ :=
  coord (pointAt ps j) axis

/-- Square of `KDTree::distance p q = sqrt (Σ_{i<DIM} (p[i]-q[i])²)`.  The
code only ever compares distances with other distances or with non-negative
axis gaps, and squaring is strictly monotone on non-negatives, so carrying
the square reproduces every comparison exactly. -/
def distanceSq (D : ℕ) (p q : List ℚ) : ℚ :=
  ∑ i ∈ Finset.range D, (coord p i - coord q i) ^ 2

/-- Node of `KDTree`: `idx` the pivot's position in the point array, `axis`
the splitting dimension, and the two children `next[0]` (left) and `next[1]`
(right); `nullptr` children are `leaf`. -/
inductive Tree where
  | leaf : Tree
  | node (idx : ℕ) (axis : ℕ) (left : Tree) (right : Tree) : Tree
deriving DecidableEq

/-- Indices stored in a (sub)tree, listed in in-order. -/
def treeIndices : Tree → List ℕ
  | Tree.leaf => []
  | Tree.node idx _ l r => treeIndices l ++ idx :: treeIndices r

/-- Height of a tree counted in nodes: a null tree has height 0, a single
node height 1. -/
def height : Tree → ℕ
  | Tree.leaf => 0
  | Tree.node _ _ l r => 1 + max (height l) (height r)

/-- One insertion step of the sort modelling `nth_element`: place `a` before
the first element whose axis key is `≥` its own. -/
def insertKey (ps : List (List ℚ)) (axis : ℕ) (a : ℕ) : List ℕ → List ℕ
  | [] => [a]
  | b :: bs =>
    if axisKey ps axis a ≤ axisKey ps axis b then a :: b :: bs
    else b :: insertKey ps axis a bs

/-- Model of the `std::nth_element` call of `buildRecursive`, whose
comparator orders indices by `points_[idx][axis]`: the index range fully
sorted by that key (a stable insertion sort), which is a conforming
`nth_element` outcome — the element at `mid` is one a sort may put there, no
element before `mid` exceeds it on the axis, none after `mid` is below it. -/
def axisSort (ps : List (List ℚ)) (axis : ℕ) : List ℕ → List ℕ
  | [] => []
  | a :: as => insertKey ps axis a (axisSort ps axis as)

/-- Embedding of `KDTree::buildRecursive (indices, npoints, depth)` —
`npoints` is always the length of the index range, so it is written
`(i :: is).length` below and the `npoints <= 0` base case is the `[]` row:
`axis = depth % DIM`, `mid = (npoints-1)/2`, `nth_element` by the axis
coordinate (see `axisSort`), pivot `indices[mid]`, then recursion on
`indices[0..mid)` and `indices(mid..npoints)`.  The extra first argument is
explicit termination fuel mirroring the C++ termination argument (each
recursive call's range is strictly shorter); `buildFuel` is insensitive to
the fuel as long as it is at least the range's length
(`buildFuel_congr` below), and `buildRecursive` instantiates it with the
length, so the recursion is structural and computes by kernel reduction. -/
def buildFuel (D : ℕ) (ps : List (List ℚ)) : ℕ → List ℕ → ℕ → Tree
  | 0, _, _ => Tree.leaf
  | _, [], _ => Tree.leaf
  | fuel + 1, i :: is, depth =>
    let axis := depth % D
    let sorted := axisSort ps axis (i :: is)
    let mid := ((i :: is).length - 1) / 2
    Tree.node (sorted.getD mid 0) axis
      (buildFuel D ps fuel (sorted.take mid) (depth + 1))
      (buildFuel D ps fuel (sorted.drop (mid + 1)) (depth + 1))

/-- Embedding of `KDTree::buildRecursive (indices, npoints, depth)` with
`npoints = indices.length`, the relation the C++ code maintains at every
call site; see `buildFuel`. -/
def buildRecursive (D : ℕ) (ps : List (List ℚ)) (indices : List ℕ)
    (depth : ℕ) : Tree :=
  buildFuel D ps indices.length indices depth

/-- Embedding of `KDTree::build (points)`: indices `0, …, n-1` (from
`std::iota`) fed to `buildRecursive` at depth 0. -/
def build (D : ℕ) (ps : List (List ℚ)) : Tree :=
  buildRecursive D ps (List.range ps.length) 0

/-- Embedding of `KDTree::validateRecursive (node, depth)`: at a node with
two non-null children, throw (here: return `false`) if the pivot's axis
coordinate is `<` the left child pivot's, or `>` the right child pivot's;
then recurse.  The `try/catch` of `validate` becomes conjunction of the
boolean verdicts. -/
def validateRecursive (ps : List (List ℚ)) : Tree → ℕ → Bool
  | Tree.leaf, _ => true
  | Tree.node idx axis l r, depth =>
    (match l, r with
     | Tree.node idx0 _ _ _, Tree.node idx1 _ _ _ =>
       !(decide (axisKey ps axis idx < axisKey ps axis idx0)) &&
       !(decide (axisKey ps axis idx > axisKey ps axis idx1))
     | _, _ => true)
    && validateRecursive ps l (depth + 1) && validateRecursive ps r (depth + 1)

/-- Embedding of `KDTree::validate ()` run on the tree produced by `build`. -/
def validate (D : ℕ) (ps : List (List ℚ)) : Bool :=
  validateRecursive ps (build D ps) 0

/-- Comparison of a fresh squared distance against the running best of
`nnSearch`: `none` is the initial state (`minDist` at its
`numeric_limits<double>::max()` sentinel, every real distance beats it). -/
def ltMin (d : ℚ) : Option (ℕ × ℚ) → Bool
  | none => true
  | some g => decide (d < g.2)

/-- Value of the running `minDist` of `nnSearch` as an extended rational:
the initial sentinel (`numeric_limits<double>::max()`, uninitialised guess)
is `⊤`, any updated state is its recorded squared distance.  Used only to
state the search invariants. -/
def bestDist : Option (ℕ × ℚ) → WithTop ℚ
  | none => ⊤
  | some g => (g.2 : WithTop ℚ)

/-- Embedding of `KDTree::nnSearchRecursive (query, node, &guess, &minDist)`.
The out-parameters `(guess, minDist)` are the threaded state `Option (ℕ × ℚ)`
(pivot index, squared distance).  `dir = query[axis] < train[axis] ? 0 : 1`;
the near child `next[dir]` is searched first, the far child `next[!dir]` only
when `fabs (query[axis]-train[axis]) < minDist` (squared on both sides
here); the two values of `dir` are the two `if` branches. -/
def nnSearchRecursive (D : ℕ) (ps : List (List ℚ)) (query : List ℚ) :
    Tree → Option (ℕ × ℚ) → Option (ℕ × ℚ)
  | Tree.leaf, best => best
  | Tree.node idx axis l r, best =>
    let train := pointAt ps idx
    let dist := distanceSq D query train
    let best1 := if ltMin dist best then some (idx, dist) else best
    if coord query axis < coord train axis then
      let best2 := nnSearchRecursive D ps query l best1
      if ltMin ((coord query axis - coord train axis) ^ 2) best2 then
        nnSearchRecursive D ps query r best2
      else best2
    else
      let best2 := nnSearchRecursive D ps query r best1
      if ltMin ((coord query axis - coord train axis) ^ 2) best2 then
        nnSearchRecursive D ps query l best2
      else best2

/-- Embedding of `KDTree::nnSearch (query)` on the tree built from `ps`:
result `none` means the C++ function would return the *uninitialised* local
`guess` and report `minDist = numeric_limits<double>::max()` (empty tree);
`some (i, d)` means it returns index `i` with squared distance `d`. -/
def nnSearch (D : ℕ) (ps : List (List ℚ)) (query : List ℚ) : Option (ℕ × ℚ) :=
  nnSearchRecursive D ps query (build D ps) none

/-- Lexicographic `std::less<std::pair<double,int>>` on (squared distance,
index) pairs, as used by the `KnnQueue` instantiation of
`BoundedPriorityQueue`. -/
def pairLt (a b : ℚ × ℕ) : Bool :=
  decide (a.1 < b.1) || (a.1 == b.1 && decide (a.2 < b.2))

namespace BoundedPriorityQueue

/-- The `std::find_if` + `std::vector::insert` step of
`BoundedPriorityQueue::push`: insert `val` immediately before the first
element `e` with `Compare()(val, e)`, i.e. `val < e`. -/
def insertSorted (val : ℚ × ℕ) : List (ℚ × ℕ) → List (ℚ × ℕ)
  | [] => [val]
  | e :: es => if pairLt val e then val :: e :: es else e :: insertSorted val es

/-- Embedding of `BoundedPriorityQueue::push (val)`: ordered insert, then
`resize (bound)` whenever the size exceeds the bound (`List.take bound` is
the identity when no overflow occurred). -/
def push (bound : ℕ) (val : ℚ × ℕ) (elements : List (ℚ × ℕ)) :
    List (ℚ × ℕ) :=
  (insertSorted val elements).take bound

/-- Embedding of `BoundedPriorityQueue::back ()` (`std::vector::back`):
`none` models the undefined behaviour of `back()` on an empty vector. -/
def back (elements : List (ℚ × ℕ)) : Option (ℚ × ℕ) := elements.getLast?

end BoundedPriorityQueue

/-- Embedding of `KDTree::knnSearchRecursive (query, node, queue, k)`.  The
far child is visited when `queue.size() < k || diff < queue.back().first`
with C++ short-circuit evaluation: `back()` is only reached when the size
test fails, and on an empty queue it is undefined behaviour, surfaced as
`none` (and propagated); the two values of `dir` are the two `if`
branches. -/
def knnSearchRecursive (D : ℕ) (ps : List (List ℚ)) (query : List ℚ)
    (k : ℕ) : Tree → List (ℚ × ℕ) → Option (List (ℚ × ℕ))
  | Tree.leaf, queue => some queue
  | Tree.node idx axis l r, queue =>
    let train := pointAt ps idx
    let dist := distanceSq D query train
    let queue1 := BoundedPriorityQueue.push k (dist, idx) queue
    if coord query axis < coord train axis then
      match knnSearchRecursive D ps query k l queue1 with
      | none => none
      | some queue2 =>
        if queue2.length < k then knnSearchRecursive D ps query k r queue2
        else
          match BoundedPriorityQueue.back queue2 with
          | none => none
          | some b =>
            if (coord query axis - coord train axis) ^ 2 < b.1 then
              knnSearchRecursive D ps query k r queue2
            else some queue2
    else
      match knnSearchRecursive D ps query k r queue1 with
      | none => none
      | some queue2 =>
        if queue2.length < k then knnSearchRecursive D ps query k l queue2
        else
          match BoundedPriorityQueue.back queue2 with
          | none => none
          | some b =>
            if (coord query axis - coord train axis) ^ 2 < b.1 then
              knnSearchRecursive D ps query k l queue2
            else some queue2

/-- Embedding of `KDTree::knnSearch (query, k)` on the tree built from `ps`:
the queue's `.second` components in queue order; `none` marks the
undefined-behaviour path (`back()` on an empty queue). -/
def knnSearch (D : ℕ) (ps : List (List ℚ)) (query : List ℚ) (k : ℕ) :
    Option (List ℕ) :=
  (knnSearchRecursive D ps query k (build D ps) []).map
    (fun queue => queue.map Prod.snd)

/-- Embedding of `KDTree::rangequeryRecursive (query, node, indices, range)`:
append the pivot when `dist < range`, recurse near side, recurse far side
when `diff < range`.  Both comparisons have a non-negative left-hand side, so
`x < range` is encoded sign-correctly as `x² < range² ∧ 0 < range`; the two
values of `dir` are the two `if` branches. -/
def rangequeryRecursive (D : ℕ) (ps : List (List ℚ)) (query : List ℚ)
    (rng : ℚ) : Tree → List ℕ → List ℕ
  | Tree.leaf, indices => indices
  | Tree.node idx axis l r, indices =>
    let train := pointAt ps idx
    let dist := distanceSq D query train
    let indices1 :=
      if dist < rng ^ 2 ∧ 0 < rng then indices ++ [idx] else indices
    if coord query axis < coord train axis then
      let indices2 := rangequeryRecursive D ps query rng l indices1
      if (coord query axis - coord train axis) ^ 2 < rng ^ 2 ∧ 0 < rng then
        rangequeryRecursive D ps query rng r indices2
      else indices2
    else
      let indices2 := rangequeryRecursive D ps query rng r indices1
      if (coord query axis - coord train axis) ^ 2 < rng ^ 2 ∧ 0 < rng then
        rangequeryRecursive D ps query rng l indices2
      else indices2

/-- Embedding of `KDTree::rangequery (query, range)` on the tree built from
`ps`. -/
def rangequery (D : ℕ) (ps : List (List ℚ)) (query : List ℚ) (rng : ℚ) :
    List ℕ :=
  rangequeryRecursive D ps query rng (build D ps) []

/-- Partition invariant established by `buildRecursive`: at every node the
splitting axis is a valid dimension, every index in the left subtree has an
axis coordinate `≤` the pivot's, and every index in the right subtree has an
axis coordinate `≥` the pivot's (on that node's axis). -/
inductive Good (D : ℕ) (ps : List (List ℚ)) : Tree → Prop
  | leaf : Good D ps Tree.leaf
  | node (idx axis : ℕ) (l r : Tree) :
      axis < D →
      (∀ j ∈ treeIndices l, axisKey ps axis j ≤ axisKey ps axis idx) →
      (∀ j ∈ treeIndices r, axisKey ps axis idx ≤ axisKey ps axis j) →
      Good D ps l → Good D ps r → Good D ps (Tree.node idx axis l r)

/-- Modelled from the spec's words for claim C6 (used only as the refinement
comparison target, never as the code): insertion placing the new entry
"immediately before the first existing entry that is not strictly less than
it", comparing entries by distance, "so among equal distances the newly
inserted entry lands before previously-inserted equal entries". -/
def specInsertC6 (val : ℚ × ℕ) : List (ℚ × ℕ) → List (ℚ × ℕ)
  | [] => [val]
  | e :: es =>
    if ¬ e.1 < val.1 then val :: e :: es else e :: specInsertC6 val es

/-- Modelled from the spec's words for claim C6: `specInsertC6` followed by
the same truncation to the capacity as the code's push. -/
def specPushC6 (bound : ℕ) (val : ℚ × ℕ) (elements : List (ℚ × ℕ)) :
    List (ℚ × ℕ) :=
  (specInsertC6 val elements).take bound

/-- Lexicographic reflexive order on (distance, index) pairs: the strict
`std::less` pair order or equality. -/
def pairLe (a b : ℚ × ℕ) : Bool := pairLt a b || a == b

/-- Precondition of the knn traversal invariant: the ghost list `P` of pairs
pushed so far holds genuine (squared distance, index) pairs, none of whose
indices lies in the subtree about to be visited (`idxs`), with pairwise
distinct indices. -/
def KnnIn (D : ℕ) (ps : List (List ℚ)) (query : List ℚ) (idxs : List ℕ)
    (P : List (ℚ × ℕ)) : Prop :=
  (∀ p ∈ P, p = (distanceSq D query (pointAt ps p.2), p.2)) ∧
  (∀ p ∈ P, p.2 ∉ idxs) ∧
  (P.map Prod.snd).Nodup

/-- Postcondition of the knn traversal invariant, relating the ghost pushed
list before (`P`) and after (`P'`) visiting a subtree with indices `idxs`
(the queue itself is always the `k` lexicographically smallest pairs of the
ghost list): only pairs of visited indices were added; all pairs stay
genuine with distinct indices; every index of the subtree was either pushed
or is at least as far as the k-th best pair (pruning soundness); and when
the queue was already full its k-th best distance never grew. -/
def KnnOut (D : ℕ) (ps : List (List ℚ)) (query : List ℚ) (k : ℕ)
    (idxs : List ℕ) (P P' : List (ℚ × ℕ)) : Prop :=
  (∃ W, P' = W ++ P ∧ ∀ p ∈ W, p.2 ∈ idxs) ∧
  (∀ p ∈ P', p = (distanceSq D query (pointAt ps p.2), p.2)) ∧
  (P'.map Prod.snd).Nodup ∧
  (∀ j ∈ idxs,
    (distanceSq D query (pointAt ps j), j) ∈ P' ∨
    (k ≤ P'.length ∧
      ∃ b, ((P'.mergeSort pairLe).take k).getLast? = some b ∧
        b.1 ≤ distanceSq D query (pointAt ps j))) ∧
  (k ≤ P.length →
    ∀ b b', ((P.mergeSort pairLe).take k).getLast? = some b →
      ((P'.mergeSort pairLe).take k).getLast? = some b' →
      b'.1 ≤ b.1)

/-! Basic facts about the sorting step that models `nth_element`. -/

theorem insertKey_perm (ps : List (List ℚ)) (axis : ℕ) (a : ℕ)
    (l : List ℕ) : (insertKey ps axis a l).Perm (a :: l) := by
  induction l with
  | nil => simp [insertKey]
  | cons b bs ih =>
    rw [insertKey]
    split
    · exact List.Perm.refl _
    · exact (ih.cons b).trans (List.Perm.swap a b bs)

theorem axisSort_perm (ps : List (List ℚ)) (axis : ℕ) (l : List ℕ) :
    (axisSort ps axis l).Perm l := by
  induction l with
  | nil => exact List.Perm.refl _
  | cons a as ih => exact (insertKey_perm ps axis a _).trans (ih.cons a)

theorem axisSort_length (ps : List (List ℚ)) (axis : ℕ) (l : List ℕ) :
    (axisSort ps axis l).length = l.length :=
  (axisSort_perm ps axis l).length_eq

theorem insertKey_pairwise (ps : List (List ℚ)) (axis : ℕ) (a : ℕ)
    (l : List ℕ)
    (hl : l.Pairwise (fun x y => axisKey ps axis x ≤ axisKey ps axis y)) :
    (insertKey ps axis a l).Pairwise
      (fun x y => axisKey ps axis x ≤ axisKey ps axis y) := by
  induction l with
  | nil => simp [insertKey]
  | cons b bs ih =>
    rw [List.pairwise_cons] at hl
    rw [insertKey]
    split
    · rename_i hab
      refine List.Pairwise.cons ?_ (List.Pairwise.cons hl.1 hl.2)
      intro y hy
      rcases List.mem_cons.mp hy with hy | hy
      · subst hy; exact hab
      · exact le_trans hab (hl.1 y hy)
    · rename_i hab
      refine List.Pairwise.cons ?_ (ih hl.2)
      intro y hy
      have hmem : y ∈ a :: bs := (insertKey_perm ps axis a bs).mem_iff.mp hy
      rcases List.mem_cons.mp hmem with hmem | hmem
      · subst hmem
        exact le_of_lt (lt_of_not_le hab)
      · exact hl.1 y hmem

theorem axisSort_pairwise (ps : List (List ℚ)) (axis : ℕ) (l : List ℕ) :
    (axisSort ps axis l).Pairwise
      (fun x y => axisKey ps axis x ≤ axisKey ps axis y) := by
  induction l with
  | nil => simp [axisSort]
  | cons a as ih => exact insertKey_pairwise ps axis a _ ih

/-! The fuel argument of `buildFuel` is irrelevant as long as it bounds the
length of the index range, so `buildRecursive` satisfies the recurrence of
the C++ `buildRecursive`. -/

theorem buildFuel_congr (D : ℕ) (ps : List (List ℚ)) :
    ∀ (f1 : ℕ) (f2 : ℕ) (l : List ℕ) (depth : ℕ),
      l.length ≤ f1 → l.length ≤ f2 →
      buildFuel D ps f1 l depth = buildFuel D ps f2 l depth := by
  intro f1
  induction f1 with
  | zero =>
    intro f2 l depth h1 _h2
    have : l = [] := List.eq_nil_of_length_eq_zero (Nat.le_zero.mp h1)
    subst this
    cases f2 <;> rfl
  | succ g ih =>
    intro f2 l depth h1 h2
    match l, f2 with
    | [], f2 => cases f2 <;> rfl
    | i :: is, g2 + 1 =>
      simp only [buildFuel]
      have hs : (axisSort ps (depth % D) (i :: is)).length = is.length + 1 := by
        rw [axisSort_length]; rfl
      congr 1
      · apply ih
        · simp only [List.length_take, hs]
          simp only [List.length_cons] at h1 ⊢
          omega
        · simp only [List.length_take, hs]
          simp only [List.length_cons] at h2 ⊢
          omega
      · apply ih
        · simp only [List.length_drop, hs]
          simp only [List.length_cons] at h1 ⊢
          omega
        · simp only [List.length_drop, hs]
          simp only [List.length_cons] at h2 ⊢
          omega

theorem buildRecursive_nil (D : ℕ) (ps : List (List ℚ)) (depth : ℕ) :
    buildRecursive D ps [] depth = Tree.leaf := rfl

theorem buildRecursive_cons (D : ℕ) (ps : List (List ℚ)) (i : ℕ)
    (is : List ℕ) (depth : ℕ) :
    buildRecursive D ps (i :: is) depth =
      Tree.node ((axisSort ps (depth % D) (i :: is)).getD (is.length / 2) 0)
        (depth % D)
        (buildRecursive D ps
          ((axisSort ps (depth % D) (i :: is)).take (is.length / 2))
          (depth + 1))
        (buildRecursive D ps
          ((axisSort ps (depth % D) (i :: is)).drop (is.length / 2 + 1))
          (depth + 1)) := by
  have hs : (axisSort ps (depth % D) (i :: is)).length = is.length + 1 := by
    rw [axisSort_length]; rfl
  simp only [buildRecursive, List.length_cons, buildFuel,
    Nat.add_sub_cancel]
  congr 1
  · exact buildFuel_congr D ps is.length _ _ _
      (by simp only [List.length_take, hs]; omega)
      (le_of_eq rfl)
  · exact buildFuel_congr D ps is.length _ _ _
      (by simp only [List.length_drop, hs]; omega)
      (le_of_eq rfl)

/-! The tree built from an index range stores exactly those indices. -/

theorem treeIndices_buildRecursive_perm (D : ℕ) (ps : List (List ℚ)) :
    ∀ (n : ℕ) (l : List ℕ) (depth : ℕ), l.length ≤ n →
      (treeIndices (buildRecursive D ps l depth)).Perm l := by
  intro n
  induction n with
  | zero =>
    intro l depth h1
    have : l = [] := List.eq_nil_of_length_eq_zero (Nat.le_zero.mp h1)
    subst this
    exact List.Perm.refl _
  | succ m ih =>
    intro l depth hlen
    match l with
    | [] => exact List.Perm.refl _
    | i :: is =>
      rw [buildRecursive_cons]
      simp only [treeIndices]
      set s := axisSort ps (depth % D) (i :: is) with hsdef
      have hs : s.length = is.length + 1 := by
        rw [hsdef, axisSort_length]; rfl
      have hmid : is.length / 2 < s.length := by omega
      have hlen' : (i :: is).length = is.length + 1 := rfl
      have h1 := ih (s.take (is.length / 2)) (depth + 1)
        (by simp only [List.length_take, hs]; rw [hlen'] at hlen; omega)
      have h2 := ih (s.drop (is.length / 2 + 1)) (depth + 1)
        (by simp only [List.length_drop, hs]; rw [hlen'] at hlen; omega)
      have hsplit : s.take (is.length / 2) ++
          s.getD (is.length / 2) 0 :: s.drop (is.length / 2 + 1) = s := by
        rw [List.getD_eq_getElem s 0 hmid, ← List.drop_eq_getElem_cons hmid]
        exact List.take_append_drop _ s
      have hstep := h1.append (h2.cons (s.getD (is.length / 2) 0))
      rw [hsplit] at hstep
      exact hstep.trans (axisSort_perm ps (depth % D) (i :: is))

theorem treeIndices_build_perm (D : ℕ) (ps : List (List ℚ)) :
    (treeIndices (build D ps)).Perm (List.range ps.length) :=
  treeIndices_buildRecursive_perm D ps (List.range ps.length).length _ 0
    le_rfl

theorem treeIndices_build_nodup (D : ℕ) (ps : List (List ℚ)) :
    (treeIndices (build D ps)).Nodup :=
  (treeIndices_build_perm D ps).symm.nodup (List.nodup_range ps.length)

theorem mem_treeIndices_build (D : ℕ) (ps : List (List ℚ)) (j : ℕ) :
    j ∈ treeIndices (build D ps) ↔ j < ps.length := by
  rw [(treeIndices_build_perm D ps).mem_iff, List.mem_range]

theorem treeIndices_buildRecursive (D : ℕ) (ps : List (List ℚ))
    (l : List ℕ) (depth : ℕ) :
    (treeIndices (buildRecursive D ps l depth)).Perm l :=
  treeIndices_buildRecursive_perm D ps l.length l depth le_rfl

/-! The build establishes the partition invariant `Good`. -/

theorem good_buildRecursive (D : ℕ) (ps : List (List ℚ)) (hD : 0 < D) :
    ∀ (n : ℕ) (l : List ℕ) (depth : ℕ), l.length ≤ n →
      Good D ps (buildRecursive D ps l depth) := by
  intro n
  induction n with
  | zero =>
    intro l depth h1
    have : l = [] := List.eq_nil_of_length_eq_zero (Nat.le_zero.mp h1)
    subst this
    exact Good.leaf
  | succ m ih =>
    intro l depth hlen
    match l with
    | [] => exact Good.leaf
    | i :: is =>
      rw [buildRecursive_cons]
      set s := axisSort ps (depth % D) (i :: is) with hsdef
      have hs : s.length = is.length + 1 := by
        rw [hsdef, axisSort_length]; rfl
      have hmid : is.length / 2 < s.length := by omega
      have hpw := axisSort_pairwise ps (depth % D) (i :: is)
      rw [← hsdef] at hpw
      have hlen' : (i :: is).length = is.length + 1 := rfl
      rw [hlen'] at hlen
      refine Good.node _ _ _ _ (Nat.mod_lt depth hD) ?_ ?_
        (ih _ _ (by simp only [List.length_take, hs]; omega))
        (ih _ _ (by simp only [List.length_drop, hs]; omega))
      · intro j hj
        have hj1 : j ∈ s.take (is.length / 2) :=
          (treeIndices_buildRecursive D ps _ _).mem_iff.mp hj
        rw [List.mem_take_iff_getElem] at hj1
        obtain ⟨pos, hpos, hval⟩ := hj1
        have hposmid : pos < is.length / 2 := lt_of_lt_of_le hpos inf_le_left
        rw [List.getD_eq_getElem s 0 hmid, ← hval]
        exact List.pairwise_iff_getElem.mp hpw pos (is.length / 2)
          (lt_trans hposmid hmid) hmid hposmid
      · intro j hj
        have hj1 : j ∈ s.drop (is.length / 2 + 1) :=
          (treeIndices_buildRecursive D ps _ _).mem_iff.mp hj
        rw [List.mem_drop_iff_getElem] at hj1
        obtain ⟨pos, hpos, hval⟩ := hj1
        rw [List.getD_eq_getElem s 0 hmid, ← hval]
        exact List.pairwise_iff_getElem.mp hpw (is.length / 2)
          (is.length / 2 + 1 + pos) hmid (by omega) (by omega)

theorem good_build (D : ℕ) (ps : List (List ℚ)) (hD : 0 < D) :
    Good D ps (build D ps) :=
  good_buildRecursive D ps hD _ _ 0 le_rfl

/-! Validation succeeds on any tree satisfying the partition invariant. -/

theorem root_mem_treeIndices (idx axis : ℕ) (l r : Tree) :
    idx ∈ treeIndices (Tree.node idx axis l r) := by
  simp [treeIndices]

theorem validateRecursive_of_good (D : ℕ) (ps : List (List ℚ)) (t : Tree)
    (h : Good D ps t) : ∀ depth, validateRecursive ps t depth = true := by
  induction h with
  | leaf => intro _; rfl
  | node idx axis l r _haxis hleft hright _hgl _hgr ihl ihr =>
    intro depth
    cases l with
    | leaf =>
      show (true && validateRecursive ps Tree.leaf (depth + 1) &&
        validateRecursive ps r (depth + 1)) = true
      simp [ihl, ihr]
    | node il al ll rl =>
      cases r with
      | leaf =>
        show (true &&
          validateRecursive ps (Tree.node il al ll rl) (depth + 1) &&
          validateRecursive ps Tree.leaf (depth + 1)) = true
        simp [ihl, ihr]
      | node ir ar lr rr =>
        have h1 : axisKey ps axis il ≤ axisKey ps axis idx :=
          hleft il (root_mem_treeIndices il al ll rl)
        have h2 : axisKey ps axis idx ≤ axisKey ps axis ir :=
          hright ir (root_mem_treeIndices ir ar lr rr)
        show ((!(decide (axisKey ps axis idx < axisKey ps axis il)) &&
            !(decide (axisKey ps axis idx > axisKey ps axis ir))) &&
          validateRecursive ps (Tree.node il al ll rl) (depth + 1) &&
          validateRecursive ps (Tree.node ir ar lr rr) (depth + 1)) = true
        simp [ihl, ihr, not_lt.mpr h1, not_lt.mpr h2]

/-- C10: after `build` on `n` points, the multiset of node indices stored
across the whole tree is exactly `{0, 1, …, n-1}` — every point index appears
at exactly one node, none duplicated or dropped. -/
theorem C10_tree_stores_every_index_once (D : ℕ) (ps : List (List ℚ)) :
    (treeIndices (build D ps)).Perm (List.range ps.length) :=
  treeIndices_build_perm D ps

/-- C4: for every non-empty point set, `validate()` returns true immediately
after `build(points)` (the one-level pivot/child coordinate checks all
pass). -/
theorem C4_validate_after_build (D : ℕ) (ps : List (List ℚ)) (hD : 0 < D)
    (_hne : ps ≠ []) : validate D ps = true :=
  validateRecursive_of_good D ps (build D ps) (good_build D ps hD) 0

/-- C4 witness: a concrete 2-D point set on which the theorem applies. -/
theorem C4_witness :
    0 < 2 ∧ ([[0, 0], [1, 1], [2, 2], [9, 9]] : List (List ℚ)) ≠ [] ∧
      validate 2 [[0, 0], [1, 1], [2, 2], [9, 9]] = true :=
  ⟨by decide, by decide,
    C4_validate_after_build 2 [[0, 0], [1, 1], [2, 2], [9, 9]]
      (by decide) (by decide)⟩

/-- C5 counterexample: two 1-D points with equal coordinate.  After `build`,
index 1 sits in the right subtree of the root (pivot index 0), but its axis
coordinate equals the pivot's — it is not strictly greater, refuting the
claim's strict inequality for right subtrees. -/
theorem C5_counterexample :
    build 1 [[1], [1]] =
        Tree.node 0 0 Tree.leaf (Tree.node 1 0 Tree.leaf Tree.leaf) ∧
      1 ∈ treeIndices (Tree.node 1 0 Tree.leaf Tree.leaf) ∧
      ¬ axisKey [[1], [1]] 0 0 < axisKey [[1], [1]] 0 1 :=
  ⟨by decide, by decide, by decide⟩

/-- C5 (amended): at every node of the built tree, every index in the left
subtree has axis coordinate `≤` the pivot's and every index in the right
subtree has axis coordinate `≥` the pivot's (not strictly greater; equal
coordinates may land on the right), on that node's axis — the `Good`
invariant. -/
theorem C5_median_partition_routes_le_left_ge_right (D : ℕ)
    (ps : List (List ℚ)) (hD : 0 < D) : Good D ps (build D ps) :=
  good_build D ps hD

/-- C5 witness: the amended partition invariant at a concrete point set. -/
theorem C5_witness :
    0 < 1 ∧ Good 1 [[3], [1], [2]] (build 1 [[3], [1], [2]]) :=
  ⟨by decide,
    C5_median_partition_routes_le_left_ge_right 1 [[3], [1], [2]] (by decide)⟩

/-! Height of the built tree.  The split at the lower median gives left size
`(n-1)/2` and right size `n/2`, so the node-counted height satisfies
`h(n) = 1 + h(n/2)`, i.e. `h(n) = ⌊log2 n⌋ + 1`. -/

theorem log2_rec (n : ℕ) (h : 2 ≤ n) : Nat.log2 n = Nat.log2 (n / 2) + 1 := by
  rw [Nat.log2]
  simp [h]

theorem log2_one : Nat.log2 1 = 0 := by
  rw [Nat.log2]
  norm_num

theorem log2_mono {m n : ℕ} (h : m ≤ n) : Nat.log2 m ≤ Nat.log2 n := by
  rw [Nat.log2_eq_log_two, Nat.log2_eq_log_two]
  exact Nat.log_mono_right h

theorem height_buildRecursive (D : ℕ) (ps : List (List ℚ)) :
    ∀ (n : ℕ) (l : List ℕ) (depth : ℕ), l.length ≤ n → l ≠ [] →
      height (buildRecursive D ps l depth) = Nat.log2 l.length + 1 := by
  intro n
  induction n with
  | zero =>
    intro l depth h1 h2
    exact absurd (List.eq_nil_of_length_eq_zero (Nat.le_zero.mp h1)) h2
  | succ m ih =>
    intro l depth hlen hne
    match l with
    | i :: is =>
      rw [buildRecursive_cons]
      rw [height]
      set s := axisSort ps (depth % D) (i :: is) with hsdef
      have hs : s.length = is.length + 1 := by
        rw [hsdef, axisSort_length]; rfl
      have hlen' : (i :: is).length = is.length + 1 := rfl
      rw [hlen'] at hlen ⊢
      have htake : (s.take (is.length / 2)).length = is.length / 2 := by
        simp only [List.length_take, hs]; omega
      have hdrop : (s.drop (is.length / 2 + 1)).length =
          is.length - is.length / 2 := by
        simp only [List.length_drop, hs]; omega
      rcases Nat.eq_zero_or_pos is.length with hcase | hcase
      · have h1 : s.take (is.length / 2) = [] := by
          apply List.eq_nil_of_length_eq_zero; omega
        have h2 : s.drop (is.length / 2 + 1) = [] := by
          apply List.eq_nil_of_length_eq_zero; omega
        rw [h1, h2, buildRecursive_nil]
        rw [hcase]
        simp [height, log2_one]
      · have hrne : s.drop (is.length / 2 + 1) ≠ [] := by
          intro hmt
          rw [hmt] at hdrop
          simp at hdrop
          omega
        have hright := ih (s.drop (is.length / 2 + 1)) (depth + 1)
          (by omega) hrne
        rw [hright, hdrop]
        rcases Nat.eq_zero_or_pos (is.length / 2) with hm0 | hmpos
        · -- lower median at 0: the left range is empty (n = 2 points)
          have hp1 : is.length = 1 := by omega
          have h1 : s.take (is.length / 2) = [] := by
            apply List.eq_nil_of_length_eq_zero; omega
          rw [h1, buildRecursive_nil]
          rw [hp1]
          simp [height, log2_one, log2_rec 2 le_rfl]
        · have hlne : s.take (is.length / 2) ≠ [] := by
            intro hmt
            rw [hmt] at htake
            simp at htake
            omega
          have hleft := ih (s.take (is.length / 2)) (depth + 1)
            (by omega) hlne
          rw [hleft, htake]
          have hmax : max (Nat.log2 (is.length / 2) + 1)
              (Nat.log2 (is.length - is.length / 2) + 1) =
              Nat.log2 (is.length - is.length / 2) + 1 := by
            have := log2_mono
              (show is.length / 2 ≤ is.length - is.length / 2 by omega)
            omega
          rw [hmax]
          have harg : is.length - is.length / 2 = (is.length + 1) / 2 := by
            omega
          rw [harg, ← log2_rec (is.length + 1) (by omega)]
          omega

theorem height_build (D : ℕ) (ps : List (List ℚ)) (hne : ps ≠ []) :
    height (build D ps) = Nat.log2 ps.length + 1 := by
  have hlen : (List.range ps.length).length = ps.length := List.length_range _
  have : List.range ps.length ≠ [] := by
    intro h
    apply hne
    apply List.eq_nil_of_length_eq_zero
    rw [← hlen, h]
    rfl
  rw [build]
  rw [height_buildRecursive D ps (List.range ps.length).length _ 0 le_rfl this, hlen]

/-- C9 counterexample: the built tree's height is not `⌈log2 n⌉` under either
height convention.  Counting nodes (a single node has height 1): 4 points
give height 3 while `⌈log2 4⌉ = 2`.  Counting edges (height − 1): 3 points
give height 1 while `⌈log2 3⌉ = 2`. -/
theorem C9_counterexample :
    height (build 1 [[0], [1], [2], [3]]) = 3 ∧ Nat.clog 2 4 = 2 ∧
      height (build 1 [[0], [1], [2]]) - 1 = 1 ∧ Nat.clog 2 3 = 2 := by
  refine ⟨by decide, ?_, by decide, ?_⟩
  · rw [Nat.clog]; norm_num
    rw [Nat.clog]; norm_num
  · rw [Nat.clog]; norm_num
    rw [Nat.clog]; norm_num

/-- C9 (amended): for every non-empty point set the built tree is balanced
with node-counted height exactly `⌊log2 n⌋ + 1` (equivalently, edge-counted
height `⌊log2 n⌋`), independent of the distribution or ordering of the
points; the stated `⌈log2 n⌉` is off by one except at exact powers of two. -/
theorem C9_height_is_floor_log2_plus_one (D : ℕ) (ps : List (List ℚ))
    (hne : ps ≠ []) : height (build D ps) = Nat.log2 ps.length + 1 :=
  height_build D ps hne

/-- C9 witness: the amended height formula at a concrete 5-point set. -/
theorem C9_witness :
    ([[5], [1], [4], [2], [3]] : List (List ℚ)) ≠ [] ∧
      height (build 1 [[5], [1], [4], [2], [3]]) =
        Nat.log2 (List.length [[5], [1], [4], [2], [3]]) + 1 :=
  ⟨by decide,
    C9_height_is_floor_log2_plus_one 1 [[5], [1], [4], [2], [3]] (by decide)⟩

/-! Geometric facts used by all three pruning arguments: a squared distance
dominates the squared gap on any single axis, and moving the far point
further along the axis (on the far side of the splitting plane) only grows
the squared axis gap. -/

theorem distanceSq_nonneg (D : ℕ) (p q : List ℚ) : 0 ≤ distanceSq D p q :=
  Finset.sum_nonneg (fun _ _ => sq_nonneg _)

theorem coord_gap_sq_le_distanceSq (D : ℕ) (p q : List ℚ) (a : ℕ)
    (ha : a < D) : (coord p a - coord q a) ^ 2 ≤ distanceSq D p q := by
  rw [distanceSq]
  exact Finset.single_le_sum
    (fun i _ => sq_nonneg (coord p i - coord q i))
    (Finset.mem_range.mpr ha)

theorem sq_gap_mono_of_le (x y z : ℚ) (h1 : x ≤ y) (h2 : y ≤ z) :
    (x - y) ^ 2 ≤ (x - z) ^ 2 := by nlinarith

theorem sq_gap_mono_of_ge (x y z : ℚ) (h1 : y ≤ x) (h2 : z ≤ y) :
    (x - y) ^ 2 ≤ (x - z) ^ 2 := by nlinarith

theorem ltMin_iff (d : ℚ) (b : Option (ℕ × ℚ)) :
    ltMin d b = true ↔ (d : WithTop ℚ) < bestDist b := by
  cases b with
  | none => simp [ltMin, bestDist, WithTop.coe_lt_top]
  | some g => simp [ltMin, bestDist, WithTop.coe_lt_coe]

theorem bestDist_coe (i : ℕ) (d : ℚ) :
    bestDist (some (i, d)) = (d : WithTop ℚ) := rfl

theorem nnSearchRecursive_node (D : ℕ) (ps : List (List ℚ))
    (query : List ℚ) (idx axis : ℕ) (l r : Tree) (best : Option (ℕ × ℚ)) :
    nnSearchRecursive D ps query (Tree.node idx axis l r) best =
      (if coord query axis < coord (pointAt ps idx) axis then
        (if ltMin ((coord query axis - coord (pointAt ps idx) axis) ^ 2)
            (nnSearchRecursive D ps query l
              (if ltMin (distanceSq D query (pointAt ps idx)) best then
                some (idx, distanceSq D query (pointAt ps idx)) else best)) then
          nnSearchRecursive D ps query r
            (nnSearchRecursive D ps query l
              (if ltMin (distanceSq D query (pointAt ps idx)) best then
                some (idx, distanceSq D query (pointAt ps idx)) else best))
        else
          nnSearchRecursive D ps query l
            (if ltMin (distanceSq D query (pointAt ps idx)) best then
              some (idx, distanceSq D query (pointAt ps idx)) else best))
      else
        (if ltMin ((coord query axis - coord (pointAt ps idx) axis) ^ 2)
            (nnSearchRecursive D ps query r
              (if ltMin (distanceSq D query (pointAt ps idx)) best then
                some (idx, distanceSq D query (pointAt ps idx)) else best)) then
          nnSearchRecursive D ps query l
            (nnSearchRecursive D ps query r
              (if ltMin (distanceSq D query (pointAt ps idx)) best then
                some (idx, distanceSq D query (pointAt ps idx)) else best))
        else
          nnSearchRecursive D ps query r
            (if ltMin (distanceSq D query (pointAt ps idx)) best then
              some (idx, distanceSq D query (pointAt ps idx)) else best))) :=
  rfl

theorem mem_treeIndices_node (j idx axis : ℕ) (l r : Tree) :
    j ∈ treeIndices (Tree.node idx axis l r) ↔
      j ∈ treeIndices l ∨ j = idx ∨ j ∈ treeIndices r := by
  simp [treeIndices]

set_option maxHeartbeats 1600000 in
/-- Branch-and-bound invariant of `nnSearchRecursive` over a subtree
satisfying the partition invariant: the threaded state stays sound (it is
either untouched or records a genuine (index, squared distance) pair), it
never worsens, and on return it lower-bounds the squared distance of every
point of the subtree — the pruning test never hides a closer point. -/
theorem nnSearchRecursive_spec (D : ℕ) (ps : List (List ℚ))
    (query : List ℚ) (t : Tree) (hg : Good D ps t) :
    ∀ (best : Option (ℕ × ℚ)) (P : ℕ → Prop),
      (best = none ∨
        ∃ i, best = some (i, distanceSq D query (pointAt ps i)) ∧ P i) →
      ((nnSearchRecursive D ps query t best = none ∨
        ∃ i, nnSearchRecursive D ps query t best =
            some (i, distanceSq D query (pointAt ps i)) ∧
          (P i ∨ i ∈ treeIndices t)) ∧
       bestDist (nnSearchRecursive D ps query t best) ≤ bestDist best ∧
       ∀ j ∈ treeIndices t,
         bestDist (nnSearchRecursive D ps query t best) ≤
           (distanceSq D query (pointAt ps j) : WithTop ℚ)) := by
  induction hg with
  | leaf =>
    intro best P hsound
    simp only [nnSearchRecursive, treeIndices]
    refine ⟨?_, le_refl _, by simp⟩
    rcases hsound with h | ⟨i, hi, hp⟩
    · exact Or.inl h
    · exact Or.inr ⟨i, hi, Or.inl hp⟩
  | node idx axis l r haxis hleft hright _hgl _hgr ihl ihr =>
    intro best P hsound
    set dI := distanceSq D query (pointAt ps idx) with hdIdef
    set best1 := if ltMin dI best then some (idx, dI) else best with hb1def
    have hsound1 : best1 = none ∨
        ∃ i, best1 = some (i, distanceSq D query (pointAt ps i)) ∧
          (P i ∨ i = idx) := by
      rw [hb1def]
      split
      · exact Or.inr ⟨idx, by rw [hdIdef], Or.inr rfl⟩
      · rcases hsound with h | ⟨i, hi, hp⟩
        · exact Or.inl h
        · exact Or.inr ⟨i, hi, Or.inl hp⟩
    have hb1_le : bestDist best1 ≤ bestDist best := by
      rw [hb1def]
      split
      · rename_i hlt
        exact le_of_lt ((ltMin_iff dI best).mp hlt)
      · exact le_refl _
    have hb1_idx : bestDist best1 ≤ (dI : WithTop ℚ) := by
      rw [hb1def]
      split
      · exact le_refl _
      · rename_i hlt
        exact le_of_not_lt (fun hc => hlt ((ltMin_iff dI best).mpr hc))
    by_cases hdir : coord query axis < coord (pointAt ps idx) axis
    · -- dir = 0: near side is the left child, far side the right child
      obtain ⟨hsound2, hle2, hbound2⟩ :=
        ihl best1 (fun i => P i ∨ i = idx) hsound1
      set best2 := nnSearchRecursive D ps query l best1 with hb2def
      have hfar_bound : ∀ j ∈ treeIndices r,
          ((coord query axis - coord (pointAt ps idx) axis) ^ 2 : ℚ) ≤
            distanceSq D query (pointAt ps j) := by
        intro j hj
        refine le_trans ?_
          (coord_gap_sq_le_distanceSq D query (pointAt ps j) axis haxis)
        exact sq_gap_mono_of_le _ _ _ (le_of_lt hdir) (hright j hj)
      by_cases hfar :
          ltMin ((coord query axis - coord (pointAt ps idx) axis) ^ 2) best2
            = true
      · have hres : nnSearchRecursive D ps query (Tree.node idx axis l r)
            best = nnSearchRecursive D ps query r best2 := by
          rw [nnSearchRecursive_node, if_pos hdir, ← hb1def, ← hb2def,
            if_pos hfar]
        obtain ⟨hsound3, hle3, hbound3⟩ :=
          ihr best2 (fun i => (P i ∨ i = idx) ∨ i ∈ treeIndices l) hsound2
        rw [hres]
        refine ⟨?_, le_trans hle3 (le_trans hle2 hb1_le), ?_⟩
        · rcases hsound3 with h | ⟨i, hi, hp⟩
          · exact Or.inl h
          · refine Or.inr ⟨i, hi, ?_⟩
            rw [mem_treeIndices_node]
            tauto
        · intro j hj
          rw [mem_treeIndices_node] at hj
          rcases hj with hj | hj | hj
          · exact le_trans hle3 (hbound2 j hj)
          · subst hj
            exact le_trans hle3 (le_trans hle2 hb1_idx)
          · exact hbound3 j hj
      · have hres : nnSearchRecursive D ps query (Tree.node idx axis l r)
            best = best2 := by
          rw [nnSearchRecursive_node, if_pos hdir, ← hb1def, ← hb2def,
            if_neg hfar]
        rw [hres]
        have hb2_diff : ((coord query axis - coord (pointAt ps idx) axis) ^ 2
            : WithTop ℚ) ≥ bestDist best2 :=
          le_of_not_lt (fun hc => hfar ((ltMin_iff _ best2).mpr hc))
        refine ⟨?_, le_trans hle2 hb1_le, ?_⟩
        · rcases hsound2 with h | ⟨i, hi, hp⟩
          · exact Or.inl h
          · refine Or.inr ⟨i, hi, ?_⟩
            rw [mem_treeIndices_node]
            tauto
        · intro j hj
          rw [mem_treeIndices_node] at hj
          rcases hj with hj | hj | hj
          · exact hbound2 j hj
          · subst hj
            exact le_trans hle2 hb1_idx
          · exact le_trans hb2_diff
              (WithTop.coe_le_coe.mpr (hfar_bound j hj))
    · -- dir = 1: near side is the right child, far side the left child
      obtain ⟨hsound2, hle2, hbound2⟩ :=
        ihr best1 (fun i => P i ∨ i = idx) hsound1
      set best2 := nnSearchRecursive D ps query r best1 with hb2def
      have hfar_bound : ∀ j ∈ treeIndices l,
          ((coord query axis - coord (pointAt ps idx) axis) ^ 2 : ℚ) ≤
            distanceSq D query (pointAt ps j) := by
        intro j hj
        refine le_trans ?_
          (coord_gap_sq_le_distanceSq D query (pointAt ps j) axis haxis)
        exact sq_gap_mono_of_ge _ _ _ (le_of_not_lt hdir) (hleft j hj)
      by_cases hfar :
          ltMin ((coord query axis - coord (pointAt ps idx) axis) ^ 2) best2
            = true
      · have hres : nnSearchRecursive D ps query (Tree.node idx axis l r)
            best = nnSearchRecursive D ps query l best2 := by
          rw [nnSearchRecursive_node, if_neg hdir, ← hb1def, ← hb2def,
            if_pos hfar]
        obtain ⟨hsound3, hle3, hbound3⟩ :=
          ihl best2 (fun i => (P i ∨ i = idx) ∨ i ∈ treeIndices r) hsound2
        rw [hres]
        refine ⟨?_, le_trans hle3 (le_trans hle2 hb1_le), ?_⟩
        · rcases hsound3 with h | ⟨i, hi, hp⟩
          · exact Or.inl h
          · refine Or.inr ⟨i, hi, ?_⟩
            rw [mem_treeIndices_node]
            tauto
        · intro j hj
          rw [mem_treeIndices_node] at hj
          rcases hj with hj | hj | hj
          · exact hbound3 j hj
          · subst hj
            exact le_trans hle3 (le_trans hle2 hb1_idx)
          · exact le_trans hle3 (hbound2 j hj)
      · have hres : nnSearchRecursive D ps query (Tree.node idx axis l r)
            best = best2 := by
          rw [nnSearchRecursive_node, if_neg hdir, ← hb1def, ← hb2def,
            if_neg hfar]
        rw [hres]
        have hb2_diff : ((coord query axis - coord (pointAt ps idx) axis) ^ 2
            : WithTop ℚ) ≥ bestDist best2 :=
          le_of_not_lt (fun hc => hfar ((ltMin_iff _ best2).mpr hc))
        refine ⟨?_, le_trans hle2 hb1_le, ?_⟩
        · rcases hsound2 with h | ⟨i, hi, hp⟩
          · exact Or.inl h
          · refine Or.inr ⟨i, hi, ?_⟩
            rw [mem_treeIndices_node]
            tauto
        · intro j hj
          rw [mem_treeIndices_node] at hj
          rcases hj with hj | hj | hj
          · exact le_trans hb2_diff
              (WithTop.coe_le_coe.mpr (hfar_bound j hj))
          · subst hj
            exact le_trans hle2 hb1_idx
          · exact hbound2 j hj

/-- C1: on every non-empty point set, `nnSearch` returns an index of minimal
Euclidean distance to the query (no point of the set is strictly closer),
together with that (squared) distance. -/
theorem C1_nnSearch_returns_minimal_distance_index (D : ℕ)
    (ps : List (List ℚ)) (query : List ℚ) (hD : 0 < D) (hne : ps ≠ []) :
    ∃ i, nnSearch D ps query =
        some (i, distanceSq D query (pointAt ps i)) ∧
      i < ps.length ∧
      ∀ j, j < ps.length →
        distanceSq D query (pointAt ps i) ≤
          distanceSq D query (pointAt ps j) := by
  obtain ⟨hsound, _hle, hbound⟩ :=
    nnSearchRecursive_spec D ps query (build D ps) (good_build D ps hD)
      none (fun _ => False) (Or.inl rfl)
  rw [← nnSearch] at hsound hbound
  have hpos : 0 < ps.length := List.length_pos.mpr hne
  have h0 : (0 : ℕ) ∈ treeIndices (build D ps) :=
    (mem_treeIndices_build D ps 0).mpr hpos
  rcases hsound with h | ⟨i, hi, hp⟩
  · exfalso
    have := hbound 0 h0
    rw [h] at this
    exact (WithTop.not_top_le_coe _) this
  · rcases hp with hp | hp
    · exact absurd hp id
    · refine ⟨i, hi, (mem_treeIndices_build D ps i).mp hp, ?_⟩
      intro j hj
      have := hbound j ((mem_treeIndices_build D ps j).mpr hj)
      rw [hi, bestDist_coe] at this
      exact WithTop.coe_le_coe.mp this

/-- C1 witness: the theorem applied to the spec's concrete scenario. -/
theorem C1_witness :
    0 < 2 ∧ ([[0, 0], [1, 1], [2, 2], [9, 9]] : List (List ℚ)) ≠ [] ∧
      ∃ i, nnSearch 2 [[0, 0], [1, 1], [2, 2], [9, 9]] [2, 2] =
          some (i, distanceSq 2 [2, 2]
            (pointAt [[0, 0], [1, 1], [2, 2], [9, 9]] i)) ∧
        i < 4 ∧
        ∀ j, j < 4 →
          distanceSq 2 [2, 2] (pointAt [[0, 0], [1, 1], [2, 2], [9, 9]] i) ≤
            distanceSq 2 [2, 2] (pointAt [[0, 0], [1, 1], [2, 2], [9, 9]] j) :=
  ⟨by decide, by decide,
    C1_nnSearch_returns_minimal_distance_index 2
      [[0, 0], [1, 1], [2, 2], [9, 9]] [2, 2] (by decide) (by decide)⟩

/-! Range query.  The traversal appends to its accumulator, so it factors
through the empty accumulator; membership is characterised exactly, and the
pruning direction again rests on the partition invariant. -/

theorem rangequeryRecursive_node (D : ℕ) (ps : List (List ℚ))
    (query : List ℚ) (rng : ℚ) (idx axis : ℕ) (l r : Tree) (acc : List ℕ) :
    rangequeryRecursive D ps query rng (Tree.node idx axis l r) acc =
      (if coord query axis < coord (pointAt ps idx) axis then
        (if (coord query axis - coord (pointAt ps idx) axis) ^ 2 < rng ^ 2 ∧
            0 < rng then
          rangequeryRecursive D ps query rng r
            (rangequeryRecursive D ps query rng l
              (if distanceSq D query (pointAt ps idx) < rng ^ 2 ∧ 0 < rng then
                acc ++ [idx] else acc))
        else
          rangequeryRecursive D ps query rng l
            (if distanceSq D query (pointAt ps idx) < rng ^ 2 ∧ 0 < rng then
              acc ++ [idx] else acc))
      else
        (if (coord query axis - coord (pointAt ps idx) axis) ^ 2 < rng ^ 2 ∧
            0 < rng then
          rangequeryRecursive D ps query rng l
            (rangequeryRecursive D ps query rng r
              (if distanceSq D query (pointAt ps idx) < rng ^ 2 ∧ 0 < rng then
                acc ++ [idx] else acc))
        else
          rangequeryRecursive D ps query rng r
            (if distanceSq D query (pointAt ps idx) < rng ^ 2 ∧ 0 < rng then
              acc ++ [idx] else acc))) :=
  rfl

theorem rangequeryRecursive_append (D : ℕ) (ps : List (List ℚ))
    (query : List ℚ) (rng : ℚ) (t : Tree) :
    ∀ (a b : List ℕ),
      rangequeryRecursive D ps query rng t (a ++ b) =
        a ++ rangequeryRecursive D ps query rng t b := by
  induction t with
  | leaf => intro a b; rfl
  | node idx axis l r ihl ihr =>
    intro a b
    rw [rangequeryRecursive_node, rangequeryRecursive_node]
    split_ifs <;> simp [List.append_assoc, ihl, ihr]

theorem rangequeryRecursive_acc (D : ℕ) (ps : List (List ℚ))
    (query : List ℚ) (rng : ℚ) (t : Tree) (acc : List ℕ) :
    rangequeryRecursive D ps query rng t acc =
      acc ++ rangequeryRecursive D ps query rng t [] := by
  have h := rangequeryRecursive_append D ps query rng t acc []
  rw [List.append_nil] at h
  exact h

theorem mem_accPush (acc : List ℕ) (idx j : ℕ) (c : Prop) [Decidable c] :
    (j ∈ (if c then acc ++ [idx] else acc)) ↔ j ∈ acc ∨ (j = idx ∧ c) := by
  by_cases h : c
  · simp [h]
  · simp [h]

/-- Exact membership of the range-query traversal over a subtree with the
partition invariant: an index is collected iff it was already in the
accumulator or lies in the subtree strictly within the radius (squared,
sign-correct encoding of `dist < range`).  The backward direction is the
pruning soundness: a skipped far subtree contains no in-range point. -/
theorem mem_rangequeryRecursive (D : ℕ) (ps : List (List ℚ))
    (query : List ℚ) (rng : ℚ) (t : Tree) (hg : Good D ps t) :
    ∀ (acc : List ℕ) (j : ℕ),
      j ∈ rangequeryRecursive D ps query rng t acc ↔
        j ∈ acc ∨ (j ∈ treeIndices t ∧
          distanceSq D query (pointAt ps j) < rng ^ 2 ∧ 0 < rng) := by
  induction hg with
  | leaf =>
    intro acc j
    simp [rangequeryRecursive, treeIndices]
  | node idx axis l r haxis hleft hright _hgl _hgr ihl ihr =>
    intro acc j
    rw [rangequeryRecursive_node]
    by_cases hdir : coord query axis < coord (pointAt ps idx) axis
    · rw [if_pos hdir]
      by_cases hfar : (coord query axis - coord (pointAt ps idx) axis) ^ 2 <
          rng ^ 2 ∧ 0 < rng
      · rw [if_pos hfar, ihr, ihl, mem_accPush, mem_treeIndices_node]
        constructor
        · rintro (((hacc | ⟨heq, hc⟩) | ⟨hl2, hc⟩) | ⟨hr2, hc⟩)
          · exact Or.inl hacc
          · subst heq; exact Or.inr ⟨Or.inr (Or.inl rfl), hc⟩
          · exact Or.inr ⟨Or.inl hl2, hc⟩
          · exact Or.inr ⟨Or.inr (Or.inr hr2), hc⟩
        · rintro (hacc | ⟨hl2 | heq | hr2, hc⟩)
          · exact Or.inl (Or.inl (Or.inl hacc))
          · exact Or.inl (Or.inr ⟨hl2, hc⟩)
          · subst heq; exact Or.inl (Or.inl (Or.inr ⟨rfl, hc⟩))
          · exact Or.inr ⟨hr2, hc⟩
      · rw [if_neg hfar, ihl, mem_accPush, mem_treeIndices_node]
        constructor
        · rintro ((hacc | ⟨heq, hc⟩) | ⟨hl2, hc⟩)
          · exact Or.inl hacc
          · subst heq; exact Or.inr ⟨Or.inr (Or.inl rfl), hc⟩
          · exact Or.inr ⟨Or.inl hl2, hc⟩
        · rintro (hacc | ⟨hl2 | heq | hr2, hc⟩)
          · exact Or.inl (Or.inl hacc)
          · exact Or.inr ⟨hl2, hc⟩
          · subst heq; exact Or.inl (Or.inr ⟨rfl, hc⟩)
          · -- a skipped far subtree cannot contain an in-range point
            exfalso
            apply hfar
            refine ⟨lt_of_le_of_lt ?_ hc.1, hc.2⟩
            refine le_trans ?_
              (coord_gap_sq_le_distanceSq D query (pointAt ps j) axis haxis)
            exact sq_gap_mono_of_le _ _ _ (le_of_lt hdir) (hright j hr2)
    · rw [if_neg hdir]
      by_cases hfar : (coord query axis - coord (pointAt ps idx) axis) ^ 2 <
          rng ^ 2 ∧ 0 < rng
      · rw [if_pos hfar, ihl, ihr, mem_accPush, mem_treeIndices_node]
        constructor
        · rintro (((hacc | ⟨heq, hc⟩) | ⟨hr2, hc⟩) | ⟨hl2, hc⟩)
          · exact Or.inl hacc
          · subst heq; exact Or.inr ⟨Or.inr (Or.inl rfl), hc⟩
          · exact Or.inr ⟨Or.inr (Or.inr hr2), hc⟩
          · exact Or.inr ⟨Or.inl hl2, hc⟩
        · rintro (hacc | ⟨hl2 | heq | hr2, hc⟩)
          · exact Or.inl (Or.inl (Or.inl hacc))
          · exact Or.inr ⟨hl2, hc⟩
          · subst heq; exact Or.inl (Or.inl (Or.inr ⟨rfl, hc⟩))
          · exact Or.inl (Or.inr ⟨hr2, hc⟩)
      · rw [if_neg hfar, ihr, mem_accPush, mem_treeIndices_node]
        constructor
        · rintro ((hacc | ⟨heq, hc⟩) | ⟨hr2, hc⟩)
          · exact Or.inl hacc
          · subst heq; exact Or.inr ⟨Or.inr (Or.inl rfl), hc⟩
          · exact Or.inr ⟨Or.inr (Or.inr hr2), hc⟩
        · rintro (hacc | ⟨hl2 | heq | hr2, hc⟩)
          · exact Or.inl (Or.inl hacc)
          · -- a skipped far subtree cannot contain an in-range point
            exfalso
            apply hfar
            refine ⟨lt_of_le_of_lt ?_ hc.1, hc.2⟩
            refine le_trans ?_
              (coord_gap_sq_le_distanceSq D query (pointAt ps j) axis haxis)
            exact sq_gap_mono_of_ge _ _ _ (le_of_not_lt hdir) (hleft j hl2)
          · subst heq; exact Or.inl (Or.inr ⟨rfl, hc⟩)
          · exact Or.inr ⟨hr2, hc⟩

theorem nodup_append3 (pre fl fr il ir : List ℕ) (idx : ℕ)
    (hpre : pre = [idx] ∨ pre = [])
    (hfl : ∀ x ∈ fl, x ∈ il) (hfr : ∀ x ∈ fr, x ∈ ir)
    (hflnd : fl.Nodup) (hfrnd : fr.Nodup)
    (hidxl : idx ∉ il) (hidxr : idx ∉ ir)
    (hdisj : ∀ x ∈ il, x ∉ ir) :
    ((pre ++ fl) ++ fr).Nodup := by
  have hpre_mem : ∀ x ∈ pre, x = idx := by
    rcases hpre with h | h <;> subst h <;> simp
  have hprend : pre.Nodup := by
    rcases hpre with h | h <;> subst h <;> simp
  refine List.Nodup.append (List.Nodup.append hprend hflnd ?_) hfrnd ?_
  · intro x hx hx'
    exact hidxl ((hpre_mem x hx) ▸ hfl x hx')
  · intro x hx hx'
    rcases List.mem_append.mp hx with hx | hx
    · exact hidxr ((hpre_mem x hx) ▸ hfr x hx')
    · exact hdisj x (hfl x hx) (hfr x hx')

/-- The range-query traversal started on an empty accumulator over a tree
with pairwise-distinct indices reports no index twice. -/
theorem rangequeryRecursive_nil_nodup (D : ℕ) (ps : List (List ℚ))
    (query : List ℚ) (rng : ℚ) (t : Tree) (hg : Good D ps t) :
    (treeIndices t).Nodup →
      (rangequeryRecursive D ps query rng t []).Nodup := by
  induction hg with
  | leaf =>
    intro _
    simp [rangequeryRecursive]
  | node idx axis l r _haxis _hleft _hright hgl hgr ihl ihr =>
    intro hnd
    rw [treeIndices] at hnd
    rw [List.nodup_append] at hnd
    obtain ⟨hndl, hndir, hdisj⟩ := hnd
    rw [List.nodup_cons] at hndir
    obtain ⟨hidxr, hndr⟩ := hndir
    have hidxl : idx ∉ treeIndices l := by
      intro hx
      exact hdisj hx (List.mem_cons_self idx _)
    have hdisj' : ∀ x ∈ treeIndices l, x ∉ treeIndices r := by
      intro x hx hx'
      exact hdisj hx (List.mem_cons_of_mem idx hx')
    have hFl_sub : ∀ x ∈ rangequeryRecursive D ps query rng l [],
        x ∈ treeIndices l := by
      intro x hx
      have := (mem_rangequeryRecursive D ps query rng l hgl [] x).mp hx
      simpa using And.left (by simpa using this)
    have hFr_sub : ∀ x ∈ rangequeryRecursive D ps query rng r [],
        x ∈ treeIndices r := by
      intro x hx
      have := (mem_rangequeryRecursive D ps query rng r hgr [] x).mp hx
      simpa using And.left (by simpa using this)
    have hFlnd := ihl hndl
    have hFrnd := ihr hndr
    rw [rangequeryRecursive_node]
    split_ifs with hdir hfar hcond hcond hfar hcond hcond
    · rw [rangequeryRecursive_acc D ps query rng r,
        rangequeryRecursive_acc D ps query rng l, List.nil_append]
      exact nodup_append3 [idx] _ _ _ _ idx (Or.inl rfl) hFl_sub hFr_sub
        hFlnd hFrnd hidxl hidxr hdisj'
    · rw [rangequeryRecursive_acc D ps query rng r,
        rangequeryRecursive_acc D ps query rng l]
      exact nodup_append3 [] _ _ _ _ idx (Or.inr rfl) hFl_sub hFr_sub
        hFlnd hFrnd hidxl hidxr hdisj'
    · rw [rangequeryRecursive_acc D ps query rng l, List.nil_append]
      have := nodup_append3 [idx] _ [] _ [] idx (Or.inl rfl) hFl_sub
        (by simp) hFlnd (by simp) hidxl (by simp) (by simp)
      simpa using this
    · rw [rangequeryRecursive_acc D ps query rng l]
      have := nodup_append3 [] _ [] _ [] idx (Or.inr rfl) hFl_sub
        (by simp) hFlnd (by simp) hidxl (by simp) (by simp)
      simpa using this
    · rw [rangequeryRecursive_acc D ps query rng l,
        rangequeryRecursive_acc D ps query rng r, List.nil_append]
      exact nodup_append3 [idx] _ _ _ _ idx (Or.inl rfl) hFr_sub hFl_sub
        hFrnd hFlnd hidxr hidxl (fun x hx hx' => hdisj' x hx' hx)
    · rw [rangequeryRecursive_acc D ps query rng l,
        rangequeryRecursive_acc D ps query rng r]
      exact nodup_append3 [] _ _ _ _ idx (Or.inr rfl) hFr_sub hFl_sub
        hFrnd hFlnd hidxr hidxl (fun x hx hx' => hdisj' x hx' hx)
    · rw [rangequeryRecursive_acc D ps query rng r, List.nil_append]
      have := nodup_append3 [idx] _ [] _ [] idx (Or.inl rfl) hFr_sub
        (by simp) hFrnd (by simp) hidxr (by simp) (by simp)
      simpa using this
    · rw [rangequeryRecursive_acc D ps query rng r]
      have := nodup_append3 [] _ [] _ [] idx (Or.inr rfl) hFr_sub
        (by simp) hFrnd (by simp) hidxr (by simp) (by simp)
      simpa using this

/-- C3: `rangequery` returns, as a set, exactly the indices of points whose
Euclidean distance to the query is strictly below the radius: membership is
`dist < range` (encoded sign-correctly on squares as
`dist² < range² ∧ 0 < range`), every index is a valid point index, and no
index is reported twice. -/
theorem C3_rangequery_exactly_the_in_range_indices (D : ℕ)
    (ps : List (List ℚ)) (query : List ℚ) (rng : ℚ) (hD : 0 < D) :
    (∀ j, j ∈ rangequery D ps query rng ↔
      (j < ps.length ∧
        distanceSq D query (pointAt ps j) < rng ^ 2 ∧ 0 < rng)) ∧
    (rangequery D ps query rng).Nodup := by
  constructor
  · intro j
    rw [rangequery,
      mem_rangequeryRecursive D ps query rng (build D ps)
        (good_build D ps hD) [] j]
    simp [mem_treeIndices_build, and_assoc]
  · exact rangequeryRecursive_nil_nodup D ps query rng (build D ps)
      (good_build D ps hD) (treeIndices_build_nodup D ps)

/-- C3 witness: the theorem applied to the spec's concrete scenario
(4 points, query at the origin, radius 3/2). -/
theorem C3_witness :
    0 < 2 ∧
      ((∀ j, j ∈ rangequery 2 [[0, 0], [1, 1], [2, 2], [9, 9]] [0, 0] (3/2) ↔
        (j < 4 ∧
          distanceSq 2 [0, 0] (pointAt [[0, 0], [1, 1], [2, 2], [9, 9]] j) <
            (3/2 : ℚ) ^ 2 ∧ (0 : ℚ) < 3/2)) ∧
      (rangequery 2 [[0, 0], [1, 1], [2, 2], [9, 9]] [0, 0] (3/2)).Nodup) :=
  ⟨by decide,
    C3_rangequery_exactly_the_in_range_indices 2
      [[0, 0], [1, 1], [2, 2], [9, 9]] [0, 0] (3/2) (by decide)⟩

/-- C8: behaviour on the tree built from zero points.  `knnSearch` and
`rangequery` return empty sequences without fault, as the claim says; but
`nnSearch` returns the modelled uninitialised state `none` — in the C++ code
the local `guess` is returned *uninitialised* (an undefined value, no
documented invalid-index sentinel) and `*minDist` is set to
`numeric_limits<double>::max()`, which is not `+infinity`. -/
theorem C8_empty_tree_behaviour (D : ℕ) (query : List ℚ) (k : ℕ)
    (rng : ℚ) :
    nnSearch D [] query = none ∧
      knnSearch D [] query k = some [] ∧
      rangequery D [] query rng = [] :=
  ⟨rfl, rfl, rfl⟩

/-! knn search with `k = 0`: every `push` into the bound-0 queue leaves it
empty, the `queue.size() < k` test is always false, and the code then calls
`back()` on the empty queue — undefined behaviour, modelled as `none`. -/

theorem knnSearchRecursive_node (D : ℕ) (ps : List (List ℚ))
    (query : List ℚ) (k : ℕ) (idx axis : ℕ) (l r : Tree)
    (queue : List (ℚ × ℕ)) :
    knnSearchRecursive D ps query k (Tree.node idx axis l r) queue =
      (if coord query axis < coord (pointAt ps idx) axis then
        (match knnSearchRecursive D ps query k l
            (BoundedPriorityQueue.push k
              (distanceSq D query (pointAt ps idx), idx) queue) with
        | none => none
        | some queue2 =>
          if queue2.length < k then knnSearchRecursive D ps query k r queue2
          else
            match BoundedPriorityQueue.back queue2 with
            | none => none
            | some b =>
              if (coord query axis - coord (pointAt ps idx) axis) ^ 2 < b.1
              then knnSearchRecursive D ps query k r queue2
              else some queue2)
      else
        (match knnSearchRecursive D ps query k r
            (BoundedPriorityQueue.push k
              (distanceSq D query (pointAt ps idx), idx) queue) with
        | none => none
        | some queue2 =>
          if queue2.length < k then knnSearchRecursive D ps query k l queue2
          else
            match BoundedPriorityQueue.back queue2 with
            | none => none
            | some b =>
              if (coord query axis - coord (pointAt ps idx) axis) ^ 2 < b.1
              then knnSearchRecursive D ps query k l queue2
              else some queue2)) :=
  rfl

theorem push_zero (val : ℚ × ℕ) (queue : List (ℚ × ℕ)) :
    BoundedPriorityQueue.push 0 val queue = [] := by
  rw [BoundedPriorityQueue.push]
  exact List.take_zero _

theorem knnSearchRecursive_zero_of_node (D : ℕ) (ps : List (List ℚ))
    (query : List ℚ) :
    ∀ t, t ≠ Tree.leaf → ∀ queue,
      knnSearchRecursive D ps query 0 t queue = none := by
  intro t
  induction t with
  | leaf => intro h; exact absurd rfl h
  | node idx axis l r ihl ihr =>
    intro _ queue
    rw [knnSearchRecursive_node]
    have hback : BoundedPriorityQueue.back ([] : List (ℚ × ℕ)) = none := rfl
    by_cases hdir : coord query axis < coord (pointAt ps idx) axis
    · rw [if_pos hdir, push_zero]
      cases l with
      | leaf =>
        show (match (some ([] : List (ℚ × ℕ))) with
          | none => none
          | some queue2 =>
            if queue2.length < 0 then knnSearchRecursive D ps query 0 r queue2
            else
              match BoundedPriorityQueue.back queue2 with
              | none => none
              | some b =>
                if (coord query axis - coord (pointAt ps idx) axis) ^ 2 < b.1
                then knnSearchRecursive D ps query 0 r queue2
                else some queue2) = none
        simp [hback]
      | node i2 a2 l2 r2 =>
        rw [ihl (by simp) []]
    · rw [if_neg hdir, push_zero]
      cases r with
      | leaf =>
        show (match (some ([] : List (ℚ × ℕ))) with
          | none => none
          | some queue2 =>
            if queue2.length < 0 then knnSearchRecursive D ps query 0 l queue2
            else
              match BoundedPriorityQueue.back queue2 with
              | none => none
              | some b =>
                if (coord query axis - coord (pointAt ps idx) axis) ^ 2 < b.1
                then knnSearchRecursive D ps query 0 l queue2
                else some queue2) = none
        simp [hback]
      | node i2 a2 l2 r2 =>
        rw [ihr (by simp) []]

theorem build_ne_leaf (D : ℕ) (ps : List (List ℚ)) (hne : ps ≠ []) :
    build D ps ≠ Tree.leaf := by
  intro h
  have hperm := treeIndices_build_perm D ps
  rw [h] at hperm
  have := hperm.length_eq
  simp at this
  exact hne (List.eq_nil_of_length_eq_zero this.symm)

/-- C7: calling knn with `k = 0` on any non-empty tree is *not* handled: the
bound-0 queue stays empty, the short-circuit falls through to
`queue.back()` on an empty `std::vector` — undefined behaviour (modelled as
`none`), not an empty result. -/
theorem C7_knn_k_zero_hits_undefined_behaviour (D : ℕ)
    (ps : List (List ℚ)) (query : List ℚ) (hne : ps ≠ []) :
    knnSearch D ps query 0 = none := by
  rw [knnSearch,
    knnSearchRecursive_zero_of_node D ps query (build D ps)
      (build_ne_leaf D ps hne) []]
  rfl

/-- C7 witness: the fault at the concrete failing input (one 1-D point,
query at the same spot, k = 0). -/
theorem C7_witness :
    ([[0]] : List (List ℚ)) ≠ [] ∧ knnSearch 1 [[0]] [0] 0 = none :=
  ⟨by decide, C7_knn_k_zero_hits_undefined_behaviour 1 [[0]] [0] (by decide)⟩

/-! The bounded priority queue.  `std::less<std::pair<double,int>>` is the
lexicographic order on (distance, index); the queue's `push` therefore
inserts at the lexicographic position, and among equal distances entries end
up ordered by index — not by insertion recency. -/

theorem pairLt_iff (a b : ℚ × ℕ) :
    pairLt a b = true ↔ a.1 < b.1 ∨ (a.1 = b.1 ∧ a.2 < b.2) := by
  rw [pairLt]
  simp [beq_iff_eq]

theorem pairLe_iff (a b : ℚ × ℕ) :
    pairLe a b = true ↔ (pairLt a b = true ∨ a = b) := by
  rw [pairLe]
  simp [beq_iff_eq]

theorem pairLt_asymm (a b : ℚ × ℕ) (h1 : pairLt a b = true)
    (h2 : pairLt b a = true) : False := by
  rw [pairLt_iff] at h1 h2
  rcases h1 with h1 | ⟨h1, h1b⟩ <;> rcases h2 with h2 | ⟨h2, h2b⟩ <;>
    first
      | exact absurd (lt_trans h1 h2) (lt_irrefl _)
      | exact absurd h1 (by omega)
      | simp_all

theorem pairLt_trichotomy (a b : ℚ × ℕ) :
    pairLt a b = true ∨ a = b ∨ pairLt b a = true := by
  rw [pairLt_iff, pairLt_iff]
  rcases lt_trichotomy a.1 b.1 with h | h | h
  · exact Or.inl (Or.inl h)
  · rcases lt_trichotomy a.2 b.2 with h2 | h2 | h2
    · exact Or.inl (Or.inr ⟨h, h2⟩)
    · exact Or.inr (Or.inl (Prod.ext h h2))
    · exact Or.inr (Or.inr (Or.inr ⟨h.symm, h2⟩))
  · exact Or.inr (Or.inr (Or.inl h))

theorem pairLt_trans (a b c : ℚ × ℕ) (h1 : pairLt a b = true)
    (h2 : pairLt b c = true) : pairLt a c = true := by
  rw [pairLt_iff] at h1 h2 ⊢
  rcases h1 with h1 | ⟨h1, h1b⟩ <;> rcases h2 with h2 | ⟨h2, h2b⟩
  · exact Or.inl (lt_trans h1 h2)
  · exact Or.inl (h2 ▸ h1)
  · exact Or.inl (h1 ▸ h2)
  · exact Or.inr ⟨h1.trans h2, lt_trans h1b h2b⟩

theorem pairLe_trans (a b c : ℚ × ℕ) (h1 : pairLe a b = true)
    (h2 : pairLe b c = true) : pairLe a c = true := by
  rw [pairLe_iff] at h1 h2 ⊢
  rcases h1 with h1 | rfl
  · rcases h2 with h2 | rfl
    · exact Or.inl (pairLt_trans a b c h1 h2)
    · exact Or.inl h1
  · exact h2

theorem pairLe_total (a b : ℚ × ℕ) :
    (pairLe a b || pairLe b a) = true := by
  rcases pairLt_trichotomy a b with h | h | h
  · simp [pairLe_iff, h]
  · simp [pairLe_iff, h]
  · simp [pairLe_iff, h]

theorem pairLe_antisymm (a b : ℚ × ℕ) (h1 : pairLe a b = true)
    (h2 : pairLe b a = true) : a = b := by
  rw [pairLe_iff] at h1 h2
  rcases h1 with h1 | rfl
  · rcases h2 with h2 | h2
    · exact absurd (pairLt_trans a b a h1 h2)
        (by rw [pairLt_iff]; simp)
    · exact h2.symm
  · rfl

theorem pairLt_le_trans (a b c : ℚ × ℕ) (h1 : pairLt a b = true)
    (h2 : pairLe b c = true) : pairLt a c = true := by
  rw [pairLe_iff] at h2
  rcases h2 with h2 | rfl
  · exact pairLt_trans a b c h1 h2
  · exact h1

theorem pairLe_fst_le (a b : ℚ × ℕ) (h : pairLe a b = true) :
    a.1 ≤ b.1 := by
  rw [pairLe_iff, pairLt_iff] at h
  rcases h with (h | ⟨h, _⟩) | rfl
  · exact le_of_lt h
  · exact le_of_eq h
  · exact le_refl _

theorem insertSorted_perm (val : ℚ × ℕ) (l : List (ℚ × ℕ)) :
    (BoundedPriorityQueue.insertSorted val l).Perm (val :: l) := by
  induction l with
  | nil => exact List.Perm.refl _
  | cons e es ih =>
    rw [BoundedPriorityQueue.insertSorted]
    split
    · exact List.Perm.refl _
    · exact (ih.cons e).trans (List.Perm.swap val e es)

theorem insertSorted_length (val : ℚ × ℕ) (l : List (ℚ × ℕ)) :
    (BoundedPriorityQueue.insertSorted val l).length = l.length + 1 :=
  (insertSorted_perm val l).length_eq

theorem insertSorted_pairwise (val : ℚ × ℕ) (l : List (ℚ × ℕ))
    (hl : l.Pairwise (fun a b => pairLe a b = true)) :
    (BoundedPriorityQueue.insertSorted val l).Pairwise
      (fun a b => pairLe a b = true) := by
  induction l with
  | nil => simp [BoundedPriorityQueue.insertSorted]
  | cons e es ih =>
    rw [List.pairwise_cons] at hl
    rw [BoundedPriorityQueue.insertSorted]
    split
    · rename_i hve
      refine List.Pairwise.cons ?_ (List.Pairwise.cons hl.1 hl.2)
      intro y hy
      rcases List.mem_cons.mp hy with hy | hy
      · subst hy
        rw [pairLe_iff]
        exact Or.inl hve
      · have h1 : pairLt val e = true := hve
        have h2 := hl.1 y hy
        rw [pairLe_iff]
        exact Or.inl (pairLt_le_trans val e y h1 h2)
    · rename_i hve
      refine List.Pairwise.cons ?_ (ih hl.2)
      intro y hy
      have hmem : y ∈ val :: es := (insertSorted_perm val es).mem_iff.mp hy
      rcases List.mem_cons.mp hmem with hmem | hmem
      · subst hmem
        rcases pairLt_trichotomy y e with h | h | h
        · exact absurd h hve
        · rw [pairLe_iff]; exact Or.inr h.symm
        · rw [pairLe_iff]; exact Or.inl h
      · exact hl.1 y hmem

theorem mergeSort_pairLe_pairwise (P : List (ℚ × ℕ)) :
    (P.mergeSort pairLe).Pairwise (fun a b => pairLe a b = true) :=
  List.sorted_mergeSort pairLe_trans pairLe_total P

/-- The uniqueness of sorted permutations for the (antisymmetric) reflexive
lexicographic order: an ordered insert into any sorted enumeration of `P`
yields exactly the lexicographic sort of `val :: P`. -/
theorem insertSorted_eq_mergeSort (val : ℚ × ℕ) (S P : List (ℚ × ℕ))
    (hsorted : S.Pairwise (fun a b => pairLe a b = true))
    (hperm : S.Perm P) :
    BoundedPriorityQueue.insertSorted val S =
      (val :: P).mergeSort pairLe := by
  exact @List.eq_of_perm_of_sorted _ (fun a b => pairLe a b = true)
    ⟨pairLe_antisymm⟩ _ _
    ((insertSorted_perm val S).trans
      ((hperm.cons val).trans (List.mergeSort_perm (val :: P) pairLe).symm))
    (insertSorted_pairwise val S hsorted)
    (mergeSort_pairLe_pairwise (val :: P))

/-- C6 counterexample: pushing an entry whose distance equals an existing
entry's.  The claim's documented rule (insert before the first entry not
strictly less *by distance*, `specPushC6`) would put the new entry (1, 7)
first; the code compares whole `(distance, index)` pairs with `std::less`,
so the new entry lands *after* the existing equal-distance entry (1, 5). -/
theorem C6_counterexample :
    BoundedPriorityQueue.push 3 (1, 7) [(1, 5)] = [(1, 5), (1, 7)] ∧
      specPushC6 3 (1, 7) [(1, 5)] = [(1, 7), (1, 5)] ∧
      BoundedPriorityQueue.push 3 (1, 7) [(1, 5)] ≠
        specPushC6 3 (1, 7) [(1, 5)] :=
  ⟨by decide, by decide, by decide⟩

/-- C6 (amended): `push` inserts the new entry immediately before the first
existing entry that is strictly greater in the lexicographic
(distance, index) order, so on a sorted queue the result is exactly the
lexicographic sort of old entries plus the new one, truncated to the bound —
among equal distances, entries are ordered by ascending index (a newly
inserted equal-distance entry with a larger index lands *after*
previously-inserted ones), not by insertion recency. -/
theorem C6_push_is_lexicographic_insertion (bound : ℕ) (val : ℚ × ℕ)
    (l : List (ℚ × ℕ))
    (hsorted : l.Pairwise (fun a b => pairLe a b = true)) :
    BoundedPriorityQueue.push bound val l =
      ((val :: l).mergeSort pairLe).take bound := by
  rw [BoundedPriorityQueue.push,
    insertSorted_eq_mergeSort val l l hsorted (List.Perm.refl l)]

/-- C6 witness: the amended insertion rule at the counterexample's input. -/
theorem C6_witness :
    ([((1 : ℚ), 5)] : List (ℚ × ℕ)).Pairwise
        (fun a b => pairLe a b = true) ∧
      BoundedPriorityQueue.push 3 (1, 7) [(1, 5)] =
        (([((1 : ℚ), 7), (1, 5)] : List (ℚ × ℕ)).mergeSort pairLe).take 3 :=
  ⟨by decide, C6_push_is_lexicographic_insertion 3 (1, 7) [(1, 5)]
    (by decide)⟩

/-! The queue truncated to its bound commutes with insertion: inserting into
a truncated sorted list and truncating again is the same as inserting into
the full sorted list and truncating.  Hence the queue contents after any
sequence of pushes are exactly the k lexicographically smallest pushed
pairs. -/

theorem insertSorted_take (v : ℚ × ℕ) :
    ∀ (S : List (ℚ × ℕ)) (k : ℕ),
      (BoundedPriorityQueue.insertSorted v (S.take k)).take k =
        (BoundedPriorityQueue.insertSorted v S).take k := by
  intro S
  induction S with
  | nil => intro k; simp
  | cons e es ih =>
    intro k
    cases k with
    | zero => simp
    | succ m =>
      rw [List.take_succ_cons, BoundedPriorityQueue.insertSorted,
        BoundedPriorityQueue.insertSorted]
      by_cases hve : pairLt v e = true
      · rw [if_pos hve, if_pos hve, List.take_succ_cons, List.take_succ_cons]
        cases m with
        | zero => simp
        | succ mm =>
          rw [List.take_succ_cons, List.take_succ_cons, List.take_take]
          rw [Nat.min_eq_left (Nat.le_succ mm)]
      · rw [if_neg hve, if_neg hve, List.take_succ_cons,
          List.take_succ_cons, ih m]

theorem push_step (k : ℕ) (v : ℚ × ℕ) (P : List (ℚ × ℕ)) :
    BoundedPriorityQueue.push k v ((P.mergeSort pairLe).take k) =
      ((v :: P).mergeSort pairLe).take k := by
  rw [BoundedPriorityQueue.push, insertSorted_take v (P.mergeSort pairLe) k,
    insertSorted_eq_mergeSort v (P.mergeSort pairLe) P
      (mergeSort_pairLe_pairwise P) (List.mergeSort_perm P pairLe)]

theorem pairLe_refl (a : ℚ × ℕ) : pairLe a a = true := by
  rw [pairLe_iff]
  exact Or.inr rfl

theorem sorted_getElem?_mono (S : List (ℚ × ℕ))
    (h : S.Pairwise (fun a b => pairLe a b = true)) (i j : ℕ) (hij : i ≤ j)
    (x y : ℚ × ℕ) (hx : S[i]? = some x) (hy : S[j]? = some y) :
    pairLe x y = true := by
  obtain ⟨hj, hyv⟩ := List.getElem?_eq_some.mp hy
  obtain ⟨hi, hxv⟩ := List.getElem?_eq_some.mp hx
  rcases eq_or_lt_of_le hij with heq | hlt
  · subst heq
    rw [← hxv, ← hyv]
    exact pairLe_refl _
  · rw [← hxv, ← hyv]
    exact List.pairwise_iff_getElem.mp h i j hi hj hlt

/-- Ordered insertion only shifts elements to the right: the element at any
position of the inserted list is `≤` the element at the same position of the
original list. -/
theorem insertSorted_getElem?_le (v : ℚ × ℕ) :
    ∀ (S : List (ℚ × ℕ)),
      S.Pairwise (fun a b => pairLe a b = true) →
      ∀ (i : ℕ) (x y : ℚ × ℕ),
        (BoundedPriorityQueue.insertSorted v S)[i]? = some x →
        S[i]? = some y → pairLe x y = true := by
  intro S
  induction S with
  | nil =>
    intro _ i x y _ hy
    simp at hy
  | cons e es ih =>
    intro hp i x y hx hy
    rw [BoundedPriorityQueue.insertSorted] at hx
    by_cases hve : pairLt v e = true
    · rw [if_pos hve] at hx
      cases i with
      | zero =>
        simp only [List.getElem?_cons_zero, Option.some.injEq] at hx hy
        subst hx
        subst hy
        rw [pairLe_iff]
        exact Or.inl hve
      | succ j =>
        rw [List.getElem?_cons_succ] at hx
        exact sorted_getElem?_mono (e :: es) hp j (j + 1) (Nat.le_succ j)
          x y hx hy
    · rw [if_neg hve] at hx
      cases i with
      | zero =>
        simp only [List.getElem?_cons_zero, Option.some.injEq] at hx hy
        subst hx
        subst hy
        exact pairLe_refl _
      | succ j =>
        rw [List.getElem?_cons_succ] at hx hy
        exact ih (List.pairwise_cons.mp hp).2 j x y hx hy

theorem getLast?_take_of_le (T : List (ℚ × ℕ)) (k : ℕ) (hk : 0 < k)
    (hkT : k ≤ T.length) : (T.take k).getLast? = T[k - 1]? := by
  rw [List.getLast?_eq_getElem?, List.length_take,
    Nat.min_eq_left hkT, List.getElem?_take]
  rw [if_pos (by omega)]

theorem kth_isSome (k : ℕ) (hk : 0 < k) (P : List (ℚ × ℕ))
    (hlen : k ≤ P.length) :
    ∃ b, ((P.mergeSort pairLe).take k).getLast? = some b := by
  have hlen' : k ≤ (P.mergeSort pairLe).length := by
    rw [List.length_mergeSort]
    exact hlen
  rw [getLast?_take_of_le _ k hk hlen']
  have hbound : k - 1 < (P.mergeSort pairLe).length := by omega
  exact ⟨_, List.getElem?_eq_getElem hbound⟩

/-- Pushing one more pair can only shrink (or keep) the k-th smallest pair. -/
theorem kth_cons_le (k : ℕ) (hk : 0 < k) (v : ℚ × ℕ)
    (P : List (ℚ × ℕ)) (hlen : k ≤ P.length) (b b' : ℚ × ℕ)
    (hb : ((P.mergeSort pairLe).take k).getLast? = some b)
    (hb' : (((v :: P).mergeSort pairLe).take k).getLast? = some b') :
    pairLe b' b = true := by
  rw [← insertSorted_eq_mergeSort v (P.mergeSort pairLe) P
    (mergeSort_pairLe_pairwise P) (List.mergeSort_perm P pairLe)] at hb'
  have h1 : k ≤ (P.mergeSort pairLe).length := by
    rw [List.length_mergeSort]; exact hlen
  have h2 : k ≤
      (BoundedPriorityQueue.insertSorted v (P.mergeSort pairLe)).length := by
    rw [insertSorted_length]; omega
  rw [getLast?_take_of_le _ k hk h1] at hb
  rw [getLast?_take_of_le _ k hk h2] at hb'
  exact insertSorted_getElem?_le v (P.mergeSort pairLe)
    (mergeSort_pairLe_pairwise P) (k - 1) b' b hb' hb

/-! Bookkeeping lemmas for composing the knn traversal invariant across the
near-side visit, the pivot push, and the (possibly pruned) far-side
visit. -/

theorem KnnIn_congr (D : ℕ) (ps : List (List ℚ)) (query : List ℚ)
    (idxs1 idxs2 : List ℕ) (hiff : ∀ j, j ∈ idxs1 ↔ j ∈ idxs2)
    (P : List (ℚ × ℕ)) (h : KnnIn D ps query idxs1 P) :
    KnnIn D ps query idxs2 P := by
  obtain ⟨hgen, hdis, hnds⟩ := h
  exact ⟨hgen, fun p hp hc => hdis p hp ((hiff p.2).mpr hc), hnds⟩

theorem KnnOut_congr (D : ℕ) (ps : List (List ℚ)) (query : List ℚ) (k : ℕ)
    (idxs1 idxs2 : List ℕ) (hiff : ∀ j, j ∈ idxs1 ↔ j ∈ idxs2)
    (P P' : List (ℚ × ℕ)) (h : KnnOut D ps query k idxs1 P P') :
    KnnOut D ps query k idxs2 P P' := by
  obtain ⟨⟨W, hW, hWm⟩, hgen, hnds, hcov, hmono⟩ := h
  exact ⟨⟨W, hW, fun p hp => (hiff p.2).mp (hWm p hp)⟩, hgen, hnds,
    fun j hj => hcov j ((hiff j).mpr hj), hmono⟩

theorem KnnIn_near (D : ℕ) (ps : List (List ℚ)) (query : List ℚ)
    (nearIdxs farIdxs : List ℕ) (idx : ℕ) (P : List (ℚ × ℕ))
    (hin : KnnIn D ps query (nearIdxs ++ idx :: farIdxs) P)
    (hidxn : idx ∉ nearIdxs) :
    KnnIn D ps query nearIdxs
      ((distanceSq D query (pointAt ps idx), idx) :: P) := by
  obtain ⟨hgen, hdis, hnds⟩ := hin
  refine ⟨?_, ?_, ?_⟩
  · intro p hp
    rcases List.mem_cons.mp hp with hp | hp
    · subst hp; rfl
    · exact hgen p hp
  · intro p hp
    rcases List.mem_cons.mp hp with hp | hp
    · subst hp; exact hidxn
    · intro hc
      exact hdis p hp (List.mem_append_left _ hc)
  · rw [List.map_cons, List.nodup_cons]
    refine ⟨?_, hnds⟩
    intro hc
    obtain ⟨p, hp, hsnd⟩ := List.mem_map.mp hc
    exact hdis p hp
      (hsnd ▸ List.mem_append_right _ (List.mem_cons_self _ _))

theorem KnnIn_of_out (D : ℕ) (ps : List (List ℚ)) (query : List ℚ)
    (k : ℕ) (nearIdxs farIdxs : List ℕ) (idx : ℕ)
    (P P2 : List (ℚ × ℕ))
    (hdis : ∀ p ∈ P, p.2 ∉ nearIdxs ++ idx :: farIdxs)
    (hdisnf : ∀ j ∈ nearIdxs, j ∉ farIdxs)
    (hidxf : idx ∉ farIdxs)
    (h2 : KnnOut D ps query k nearIdxs
      ((distanceSq D query (pointAt ps idx), idx) :: P) P2) :
    KnnIn D ps query farIdxs P2 := by
  obtain ⟨⟨W2, hW2, hW2m⟩, hgen2, hnds2, _, _⟩ := h2
  refine ⟨hgen2, ?_, hnds2⟩
  intro p hp
  rw [hW2] at hp
  rcases List.mem_append.mp hp with hp | hp
  · exact hdisnf p.2 (hW2m p hp)
  · rcases List.mem_cons.mp hp with hp | hp
    · subst hp; exact hidxf
    · intro hc
      exact hdis p hp
        (List.mem_append_right _ (List.mem_cons_of_mem idx hc))

theorem KnnOut_compose (D : ℕ) (ps : List (List ℚ)) (query : List ℚ)
    (k : ℕ) (hk : 0 < k) (nearIdxs farIdxs : List ℕ) (idx : ℕ)
    (P P2 P3 : List (ℚ × ℕ))
    (h2 : KnnOut D ps query k nearIdxs
      ((distanceSq D query (pointAt ps idx), idx) :: P) P2)
    (h3 : KnnOut D ps query k farIdxs P2 P3) :
    KnnOut D ps query k (nearIdxs ++ idx :: farIdxs) P P3 := by
  obtain ⟨⟨W2, hW2, hW2m⟩, _hgen2, _hnds2, hcov2, hmono2⟩ := h2
  obtain ⟨⟨W3, hW3, hW3m⟩, hgen3, hnds3, hcov3, hmono3⟩ := h3
  have hlen2 : P.length + 1 ≤ P2.length := by
    rw [hW2]
    simp
  have hlen3 : P2.length ≤ P3.length := by
    rw [hW3]
    simp
  have hvP2 : (distanceSq D query (pointAt ps idx), idx) ∈ P2 := by
    rw [hW2]
    exact List.mem_append_right _ (List.mem_cons_self _ _)
  refine ⟨⟨W3 ++ W2 ++ [(distanceSq D query (pointAt ps idx), idx)], ?_, ?_⟩,
    hgen3, hnds3, ?_, ?_⟩
  · rw [hW3, hW2]
    simp
  · intro p hp
    rcases List.mem_append.mp hp with hp | hp
    · rcases List.mem_append.mp hp with hp | hp
      · exact List.mem_append_right _
          (List.mem_cons_of_mem idx (hW3m p hp))
      · exact List.mem_append_left _ (hW2m p hp)
    · have hv : p = (distanceSq D query (pointAt ps idx), idx) := by
        simpa using hp
      rw [hv]
      exact List.mem_append_right _ (List.mem_cons_self _ _)
  · intro j hj
    rcases List.mem_append.mp hj with hj | hj
    · rcases hcov2 j hj with hc | ⟨hklen, b2, hb2, hble⟩
      · left
        rw [hW3]
        exact List.mem_append_right _ hc
      · right
        refine ⟨le_trans hklen hlen3, ?_⟩
        obtain ⟨b3, hb3⟩ := kth_isSome k hk P3 (le_trans hklen hlen3)
        exact ⟨b3, hb3, le_trans (hmono3 hklen b2 b3 hb2 hb3) hble⟩
    · rcases List.mem_cons.mp hj with hj | hj
      · subst hj
        left
        rw [hW3]
        exact List.mem_append_right _ hvP2
      · exact hcov3 j hj
  · intro hkP b b' hb hb'
    obtain ⟨b1, hb1⟩ := kth_isSome k hk
      ((distanceSq D query (pointAt ps idx), idx) :: P) (by simp; omega)
    obtain ⟨b2, hb2⟩ := kth_isSome k hk P2 (by omega)
    have s1 : b1.1 ≤ b.1 :=
      pairLe_fst_le b1 b (kth_cons_le k hk _ P hkP b b1 hb hb1)
    have s2 : b2.1 ≤ b1.1 := hmono2 (by simp; omega) b1 b2 hb1 hb2
    have s3 : b'.1 ≤ b2.1 := hmono3 (by omega) b2 b' hb2 hb'
    linarith

theorem KnnOut_skip (D : ℕ) (ps : List (List ℚ)) (query : List ℚ)
    (k : ℕ) (hk : 0 < k) (nearIdxs farIdxs : List ℕ) (idx : ℕ)
    (P P2 : List (ℚ × ℕ))
    (h2 : KnnOut D ps query k nearIdxs
      ((distanceSq D query (pointAt ps idx), idx) :: P) P2)
    (hkP2 : k ≤ P2.length) (b2 : ℚ × ℕ)
    (hb2 : ((P2.mergeSort pairLe).take k).getLast? = some b2)
    (hbound : ∀ j ∈ farIdxs, b2.1 ≤ distanceSq D query (pointAt ps j)) :
    KnnOut D ps query k (nearIdxs ++ idx :: farIdxs) P P2 := by
  obtain ⟨⟨W2, hW2, hW2m⟩, hgen2, hnds2, hcov2, hmono2⟩ := h2
  have hvP2 : (distanceSq D query (pointAt ps idx), idx) ∈ P2 := by
    rw [hW2]
    exact List.mem_append_right _ (List.mem_cons_self _ _)
  refine ⟨⟨W2 ++ [(distanceSq D query (pointAt ps idx), idx)], ?_, ?_⟩,
    hgen2, hnds2, ?_, ?_⟩
  · rw [hW2]
    simp
  · intro p hp
    rcases List.mem_append.mp hp with hp | hp
    · exact List.mem_append_left _ (hW2m p hp)
    · have hv : p = (distanceSq D query (pointAt ps idx), idx) := by
        simpa using hp
      rw [hv]
      exact List.mem_append_right _ (List.mem_cons_self _ _)
  · intro j hj
    rcases List.mem_append.mp hj with hj | hj
    · exact hcov2 j hj
    · rcases List.mem_cons.mp hj with hj | hj
      · subst hj
        exact Or.inl hvP2
      · exact Or.inr ⟨hkP2, b2, hb2, hbound j hj⟩
  · intro hkP b b' hb hb'
    obtain ⟨b1, hb1⟩ := kth_isSome k hk
      ((distanceSq D query (pointAt ps idx), idx) :: P) (by simp; omega)
    have s1 : b1.1 ≤ b.1 :=
      pairLe_fst_le b1 b (kth_cons_le k hk _ P hkP b b1 hb hb1)
    have s2 : b'.1 ≤ b1.1 := hmono2 (by simp; omega) b1 b' hb1 hb'
    linarith

set_option maxHeartbeats 1600000 in
/-- Main invariant of `knnSearchRecursive` over a subtree with the partition
invariant and distinct indices: started on the queue holding the `k`
lexicographically smallest of the ghost pushed list `P`, it returns (no
undefined behaviour for `k ≥ 1`) the queue of the `k` smallest of some
extended pushed list `P'` satisfying `KnnOut` — in particular every index of
the subtree is either pushed or provably at distance at least the k-th best
(the far side is only skipped when the axis gap already rules it out). -/
theorem knnSearchRecursive_spec (D : ℕ) (ps : List (List ℚ))
    (query : List ℚ) (k : ℕ) (hk : 0 < k) (t : Tree) (hg : Good D ps t) :
    (treeIndices t).Nodup →
    ∀ P : List (ℚ × ℕ), KnnIn D ps query (treeIndices t) P →
      ∃ P' : List (ℚ × ℕ),
        knnSearchRecursive D ps query k t ((P.mergeSort pairLe).take k) =
          some ((P'.mergeSort pairLe).take k) ∧
        KnnOut D ps query k (treeIndices t) P P' := by
  induction hg with
  | leaf =>
    intro _ P hin
    refine ⟨P, rfl, ⟨[], rfl, by simp⟩, hin.1, hin.2.2,
      by simp [treeIndices], ?_⟩
    intro _ b b' hb hb'
    rw [hb] at hb'
    injection hb' with h
    rw [h]
  | node idx axis l r haxis hleft hright _hgl _hgr ihl ihr =>
    intro hnd P hin
    rw [treeIndices] at hnd
    rw [List.nodup_append] at hnd
    obtain ⟨hndl, hndir, hdisj⟩ := hnd
    rw [List.nodup_cons] at hndir
    obtain ⟨hidxr, hndr⟩ := hndir
    have hidxl : idx ∉ treeIndices l := fun hx =>
      hdisj hx (List.mem_cons_self idx _)
    have hdisjlr : ∀ x ∈ treeIndices l, x ∉ treeIndices r :=
      fun x hx hx' => hdisj hx (List.mem_cons_of_mem idx hx')
    rw [show treeIndices (Tree.node idx axis l r) =
      treeIndices l ++ idx :: treeIndices r from rfl] at hin ⊢
    by_cases hdir : coord query axis < coord (pointAt ps idx) axis
    · -- near side: left child; far side: right child
      obtain ⟨P2, heq2, hout2⟩ := ihl hndl
        ((distanceSq D query (pointAt ps idx), idx) :: P)
        (KnnIn_near D ps query _ _ idx P hin hidxl)
      have hinF := KnnIn_of_out D ps query k _ _ idx P P2 hin.2.1
        hdisjlr hidxr hout2
      rw [knnSearchRecursive_node, if_pos hdir, push_step, heq2]
      simp only []
      by_cases hlen2 : ((P2.mergeSort pairLe).take k).length < k
      · rw [if_pos hlen2]
        obtain ⟨P3, heq3, hout3⟩ := ihr hndr P2 hinF
        rw [heq3]
        exact ⟨P3, rfl,
          KnnOut_compose D ps query k hk _ _ idx P P2 P3 hout2 hout3⟩
      · rw [if_neg hlen2]
        have hkP2 : k ≤ P2.length := by
          rw [List.length_take, List.length_mergeSort] at hlen2
          omega
        obtain ⟨b2, hb2⟩ := kth_isSome k hk P2 hkP2
        have hback : BoundedPriorityQueue.back
            ((P2.mergeSort pairLe).take k) = some b2 := hb2
        rw [hback]
        simp only []
        by_cases hdiff :
            (coord query axis - coord (pointAt ps idx) axis) ^ 2 < b2.1
        · rw [if_pos hdiff]
          obtain ⟨P3, heq3, hout3⟩ := ihr hndr P2 hinF
          rw [heq3]
          exact ⟨P3, rfl,
            KnnOut_compose D ps query k hk _ _ idx P P2 P3 hout2 hout3⟩
        · rw [if_neg hdiff]
          refine ⟨P2, rfl,
            KnnOut_skip D ps query k hk _ _ idx P P2 hout2 hkP2 b2 hb2 ?_⟩
          intro j hj
          have h1 : b2.1 ≤
              (coord query axis - coord (pointAt ps idx) axis) ^ 2 :=
            le_of_not_lt hdiff
          refine le_trans h1 (le_trans ?_
            (coord_gap_sq_le_distanceSq D query (pointAt ps j) axis haxis))
          exact sq_gap_mono_of_le _ _ _ (le_of_lt hdir) (hright j hj)
    · -- near side: right child; far side: left child
      have hswap : ∀ j, j ∈ treeIndices r ++ idx :: treeIndices l ↔
          j ∈ treeIndices l ++ idx :: treeIndices r := by
        intro j
        simp only [List.mem_append, List.mem_cons]
        tauto
      have hin' := KnnIn_congr D ps query _ _
        (fun j => (hswap j).symm) P hin
      obtain ⟨P2, heq2, hout2⟩ := ihr hndr
        ((distanceSq D query (pointAt ps idx), idx) :: P)
        (KnnIn_near D ps query _ _ idx P hin' hidxr)
      have hinF := KnnIn_of_out D ps query k _ _ idx P P2 hin'.2.1
        (fun x hx hx' => hdisjlr x hx' hx) hidxl hout2
      rw [knnSearchRecursive_node, if_neg hdir, push_step, heq2]
      simp only []
      by_cases hlen2 : ((P2.mergeSort pairLe).take k).length < k
      · rw [if_pos hlen2]
        obtain ⟨P3, heq3, hout3⟩ := ihl hndl P2 hinF
        rw [heq3]
        exact ⟨P3, rfl,
          KnnOut_congr D ps query k _ _ hswap P P3
            (KnnOut_compose D ps query k hk _ _ idx P P2 P3 hout2 hout3)⟩
      · rw [if_neg hlen2]
        have hkP2 : k ≤ P2.length := by
          rw [List.length_take, List.length_mergeSort] at hlen2
          omega
        obtain ⟨b2, hb2⟩ := kth_isSome k hk P2 hkP2
        have hback : BoundedPriorityQueue.back
            ((P2.mergeSort pairLe).take k) = some b2 := hb2
        rw [hback]
        simp only []
        by_cases hdiff :
            (coord query axis - coord (pointAt ps idx) axis) ^ 2 < b2.1
        · rw [if_pos hdiff]
          obtain ⟨P3, heq3, hout3⟩ := ihl hndl P2 hinF
          rw [heq3]
          exact ⟨P3, rfl,
            KnnOut_congr D ps query k _ _ hswap P P3
              (KnnOut_compose D ps query k hk _ _ idx P P2 P3 hout2 hout3)⟩
        · rw [if_neg hdiff]
          refine ⟨P2, rfl,
            KnnOut_congr D ps query k _ _ hswap P P2
              (KnnOut_skip D ps query k hk _ _ idx P P2 hout2 hkP2 b2 hb2
                ?_)⟩
          intro j hj
          have h1 : b2.1 ≤
              (coord query axis - coord (pointAt ps idx) axis) ^ 2 :=
            le_of_not_lt hdiff
          refine le_trans h1 (le_trans ?_
            (coord_gap_sq_le_distanceSq D query (pointAt ps j) axis haxis))
          exact sq_gap_mono_of_ge _ _ _ (le_of_not_lt hdir) (hleft j hj)

/-! From the traversal invariant to the top-level knn statement: the final
queue's distance column is exactly the first k entries of the sorted list of
all point distances. -/

theorem rat_mergeSort_sorted (L : List ℚ) :
    (L.mergeSort (fun a b => decide (a ≤ b))).Pairwise
      (fun a b : ℚ => a ≤ b) := by
  have h := @List.sorted_mergeSort ℚ (fun a b => decide (a ≤ b))
    (fun a b c h1 h2 => by
      simp only [decide_eq_true_eq] at h1 h2 ⊢
      exact le_trans h1 h2)
    (fun a b => by simp [le_total]) L
  exact h.imp (fun hab => by simpa using hab)

theorem pairwise_fst_of_pairLe (L : List (ℚ × ℕ))
    (h : L.Pairwise (fun a b => pairLe a b = true)) :
    (L.map Prod.fst).Pairwise (fun a b : ℚ => a ≤ b) :=
  h.map Prod.fst (fun a b hab => pairLe_fst_le a b hab)

theorem sorted_le_getLast (L : List (ℚ × ℕ))
    (hL : L.Pairwise (fun a b => pairLe a b = true)) (h : L ≠ []) :
    ∀ u ∈ L, pairLe u (L.getLast h) = true := by
  intro u hu
  have hsplit := List.dropLast_append_getLast h
  rw [← hsplit] at hL hu
  rcases List.mem_append.mp hu with hu | hu
  · exact (List.pairwise_append.mp hL).2.2 u hu _ (by simp)
  · have : u = L.getLast h := by simpa using hu
    rw [this]
    exact pairLe_refl _

/-- If the distances decompose as a prefix `Qd` (sorted) with everything in
the remainder `E` at least every element of `Qd`, then the first
`Qd.length` entries of the full sorted distance list are exactly `Qd`. -/
theorem sorted_take_decomp (Qd E allD : List ℚ)
    (hperm : allD.Perm (Qd ++ E))
    (hQd : Qd.Pairwise (fun a b : ℚ => a ≤ b))
    (hcross : ∀ u ∈ Qd, ∀ x ∈ E, u ≤ x) :
    (allD.mergeSort (fun a b => decide (a ≤ b))).take Qd.length = Qd := by
  have h1 : allD.mergeSort (fun a b => decide (a ≤ b)) =
      Qd ++ E.mergeSort (fun a b => decide (a ≤ b)) := by
    refine List.eq_of_perm_of_sorted ?_ (rat_mergeSort_sorted allD) ?_
    · refine (List.mergeSort_perm allD _).trans (hperm.trans ?_)
      exact List.Perm.append_left Qd (List.mergeSort_perm E _).symm
    · refine List.pairwise_append.mpr ⟨hQd, rat_mergeSort_sorted E, ?_⟩
      intro u hu x hx
      exact hcross u hu x ((List.mergeSort_perm E _).subset hx)
  rw [h1, List.take_left]

set_option maxHeartbeats 3200000 in
/-- C2: for every point set, query and `k ≥ 1`, `knnSearch` returns (without
fault) exactly `min k n` pairwise-distinct valid indices whose distances to
the query are the `k` smallest over the whole set (as a multiset), listed in
ascending distance order: the returned distance column is literally the
first `k` entries of the sorted list of all point distances.  For `k > n`
this yields all `n` indices in ascending distance order. -/
theorem C2_knnSearch_returns_k_smallest_ascending (D : ℕ)
    (ps : List (List ℚ)) (query : List ℚ) (k : ℕ) (hD : 0 < D)
    (hk : 0 < k) :
    ∃ res : List ℕ,
      knnSearch D ps query k = some res ∧
      res.length = min k ps.length ∧
      res.Nodup ∧
      (∀ i ∈ res, i < ps.length) ∧
      res.map (fun i => distanceSq D query (pointAt ps i)) =
        (((List.range ps.length).map
            (fun i => distanceSq D query (pointAt ps i))).mergeSort
          (fun a b => decide (a ≤ b))).take k := by
  obtain ⟨P', hres, ⟨W, hW, hWm⟩, hgen, hnds, hcov, _hmono⟩ :=
    knnSearchRecursive_spec D ps query k hk (build D ps)
      (good_build D ps hD) (treeIndices_build_nodup D ps) []
      ⟨by simp, by simp, by simp⟩
  rw [List.append_nil] at hW
  subst hW
  have hinit : (([] : List (ℚ × ℕ)).mergeSort pairLe).take k = [] := by
    simp
  rw [hinit] at hres
  have hsortedP : (P'.mergeSort pairLe).Pairwise
      (fun a b => pairLe a b = true) := mergeSort_pairLe_pairwise P'
  have hQsorted : ((P'.mergeSort pairLe).take k).Pairwise
      (fun a b => pairLe a b = true) :=
    hsortedP.sublist (List.take_sublist k _)
  have hQsub : ∀ p ∈ (P'.mergeSort pairLe).take k, p ∈ P' := by
    intro p hp
    exact (List.mergeSort_perm P' pairLe).subset (List.mem_of_mem_take hp)
  have hPmem : ∀ p ∈ P',
      p = (distanceSq D query (pointAt ps p.2), p.2) ∧
        p.2 ∈ treeIndices (build D ps) :=
    fun p hp => ⟨hgen p hp, hWm p hp⟩
  have hP'nodup : P'.Nodup := List.Nodup.of_map _ hnds
  have hAnodup : ((treeIndices (build D ps)).map
      (fun j => (distanceSq D query (pointAt ps j), j))).Nodup := by
    refine List.Nodup.map ?_ (treeIndices_build_nodup D ps)
    intro a b hab
    have h := congrArg Prod.snd hab
    simpa using h
  have hP'subA : ∀ p ∈ P', p ∈ (treeIndices (build D ps)).map
      (fun j => (distanceSq D query (pointAt ps j), j)) := by
    intro p hp
    obtain ⟨hpg, hpt⟩ := hPmem p hp
    exact List.mem_map.mpr ⟨p.2, hpt, hpg.symm⟩
  have hsubperm : P'.Subperm ((treeIndices (build D ps)).map
      (fun j => (distanceSq D query (pointAt ps j), j))) :=
    hP'nodup.subperm (fun p hp => hP'subA p hp)
  have hlenA : ((treeIndices (build D ps)).map
      (fun j => (distanceSq D query (pointAt ps j), j))).length =
      ps.length := by
    rw [List.length_map, (treeIndices_build_perm D ps).length_eq,
      List.length_range]
  have hlenP'A : P'.length ≤ ps.length := by
    have h := hsubperm.length_le
    rw [hlenA] at h
    exact h
  have hallDperm : ((List.range ps.length).map
      (fun i => distanceSq D query (pointAt ps i))).Perm
      (((treeIndices (build D ps)).map
        (fun j => (distanceSq D query (pointAt ps j), j))).map Prod.fst) := by
    rw [List.map_map]
    exact (List.Perm.map _ (treeIndices_build_perm D ps)).symm
  have hmapres : (((P'.mergeSort pairLe).take k).map Prod.snd).map
      (fun i => distanceSq D query (pointAt ps i)) =
      ((P'.mergeSort pairLe).take k).map Prod.fst := by
    rw [List.map_map]
    refine List.map_congr_left ?_
    intro p hp
    exact (congrArg Prod.fst (hPmem p (hQsub p hp)).1).symm
  have hresnodup : (((P'.mergeSort pairLe).take k).map Prod.snd).Nodup := by
    have h1 : ((P'.mergeSort pairLe).map Prod.snd).Nodup :=
      ((List.mergeSort_perm P' pairLe).map Prod.snd).symm.nodup hnds
    exact h1.sublist ((List.take_sublist k _).map Prod.snd)
  have hresvalid : ∀ i ∈ ((P'.mergeSort pairLe).take k).map Prod.snd,
      i < ps.length := by
    intro i hi
    obtain ⟨p, hp, hpi⟩ := List.mem_map.mp hi
    rw [← hpi]
    exact (mem_treeIndices_build D ps p.2).mp (hPmem p (hQsub p hp)).2
  refine ⟨((P'.mergeSort pairLe).take k).map Prod.snd, ?_, ?_, hresnodup,
    hresvalid, ?_⟩
  · rw [knnSearch, hres]
    rfl
  · -- length: min k n
    rw [List.length_map, List.length_take, List.length_mergeSort]
    by_cases hbig : k ≤ P'.length
    · omega
    · -- the queue never filled: every index was pushed
      have hAllIn : ∀ j ∈ treeIndices (build D ps),
          (distanceSq D query (pointAt ps j), j) ∈ P' := by
        intro j hj
        rcases hcov j hj with hc | ⟨hkl, _⟩
        · exact hc
        · omega
      have hpermPA : P'.Perm ((treeIndices (build D ps)).map
          (fun j => (distanceSq D query (pointAt ps j), j))) := by
        rw [List.perm_ext_iff_of_nodup hP'nodup hAnodup]
        intro a
        constructor
        · exact hP'subA a
        · intro ha
          obtain ⟨j, hj, hja⟩ := List.mem_map.mp ha
          rw [← hja]
          exact hAllIn j hj
      have hlenP' : P'.length = ps.length := by
        rw [hpermPA.length_eq, hlenA]
      omega
  · -- the distance column is the first k of all sorted distances
    rw [hmapres]
    by_cases hbig : k ≤ P'.length
    · -- full queue: prune-soundness gives the bound for everything missing
      obtain ⟨L, hLperm, hPL⟩ := List.subperm_iff.mp hsubperm
      obtain ⟨rest, hrest⟩ := hPL.exists_perm_append
      have hArest : (((treeIndices (build D ps)).map
          (fun j => (distanceSq D query (pointAt ps j), j)))).Perm
          (P' ++ rest) := hLperm.symm.trans hrest
      have hPRnodup : (P' ++ rest).Nodup := hArest.nodup hAnodup
      have hrestP' : ∀ a ∈ rest, a ∉ P' := by
        have hd := (List.nodup_append.mp hPRnodup).2.2
        exact fun a ha hc => hd hc ha
      obtain ⟨b, hb⟩ := kth_isSome k hk P' hbig
      have hQlen : ((P'.mergeSort pairLe).take k).length = k := by
        rw [List.length_take, List.length_mergeSort]
        omega
      have hQne : (P'.mergeSort pairLe).take k ≠ [] := by
        intro h
        rw [h] at hQlen
        simp at hQlen
        omega
      have hblast : b = ((P'.mergeSort pairLe).take k).getLast hQne := by
        rw [List.getLast?_eq_getLast _ hQne] at hb
        injection hb with h
        exact h.symm
      have hbmem : b ∈ (P'.mergeSort pairLe).take k := by
        rw [hblast]
        exact List.getLast_mem hQne
      have hQ_le_b : ∀ u ∈ (P'.mergeSort pairLe).take k, u.1 ≤ b.1 := by
        intro u hu
        refine pairLe_fst_le _ _ ?_
        rw [hblast]
        exact sorted_le_getLast _ hQsorted hQne u hu
      have hQD : ∀ x ∈ (P'.mergeSort pairLe).drop k, b.1 ≤ x.1 := by
        have hpw := hsortedP
        rw [← List.take_append_drop k (P'.mergeSort pairLe)] at hpw
        have hcross := (List.pairwise_append.mp hpw).2.2
        exact fun x hx => pairLe_fst_le _ _ (hcross b hbmem x hx)
      have hrestb : ∀ a ∈ rest, b.1 ≤ a.1 := by
        intro a ha
        have haA : a ∈ ((treeIndices (build D ps)).map
            (fun j => (distanceSq D query (pointAt ps j), j))) :=
          hArest.symm.subset (List.mem_append_right _ ha)
        obtain ⟨j, hj, hja⟩ := List.mem_map.mp haA
        rcases hcov j hj with hc | ⟨_, b', hb', hble⟩
        · exact absurd (hja ▸ hc) (hrestP' a ha)
        · rw [hb] at hb'
          injection hb' with hbb
          rw [← hbb] at hble
          rw [← hja]
          exact hble
      have hdec := sorted_take_decomp
        (((P'.mergeSort pairLe).take k).map Prod.fst)
        (((P'.mergeSort pairLe).drop k ++ rest).map Prod.fst)
        ((List.range ps.length).map
          (fun i => distanceSq D query (pointAt ps i)))
        ?_ (pairwise_fst_of_pairLe _ hQsorted) ?_
      · rw [List.length_map, hQlen] at hdec
        exact hdec.symm
      · refine hallDperm.trans ?_
        have h1 : (((treeIndices (build D ps)).map
            (fun j => (distanceSq D query (pointAt ps j), j))).map
              Prod.fst).Perm ((P' ++ rest).map Prod.fst) :=
          hArest.map Prod.fst
        refine h1.trans ?_
        rw [List.map_append]
        have h2 : (P'.map Prod.fst).Perm
            ((P'.mergeSort pairLe).map Prod.fst) :=
          ((List.mergeSort_perm P' pairLe).map Prod.fst).symm
        refine (h2.append_right (rest.map Prod.fst)).trans ?_
        rw [← List.take_append_drop k (P'.mergeSort pairLe),
          List.map_append]
        rw [List.map_append, List.append_assoc]
        rw [List.take_append_drop]
      · intro u hu x hx
        obtain ⟨p, hp, hpu⟩ := List.mem_map.mp hu
        obtain ⟨q, hq, hqx⟩ := List.mem_map.mp hx
        rw [← hpu, ← hqx]
        refine le_trans (hQ_le_b p hp) ?_
        rcases List.mem_append.mp hq with hq | hq
        · exact hQD q hq
        · exact hrestb q hq
    · -- queue never filled: indices are exactly all of them
      have hAllIn : ∀ j ∈ treeIndices (build D ps),
          (distanceSq D query (pointAt ps j), j) ∈ P' := by
        intro j hj
        rcases hcov j hj with hc | ⟨hkl, _⟩
        · exact hc
        · omega
      have hpermPA : P'.Perm ((treeIndices (build D ps)).map
          (fun j => (distanceSq D query (pointAt ps j), j))) := by
        rw [List.perm_ext_iff_of_nodup hP'nodup hAnodup]
        intro a
        constructor
        · exact hP'subA a
        · intro ha
          obtain ⟨j, hj, hja⟩ := List.mem_map.mp ha
          rw [← hja]
          exact hAllIn j hj
      have htakeall : (P'.mergeSort pairLe).take k = P'.mergeSort pairLe :=
        List.take_of_length_le (by rw [List.length_mergeSort]; omega)
      have hdec := sorted_take_decomp
        ((P'.mergeSort pairLe).map Prod.fst) []
        ((List.range ps.length).map
          (fun i => distanceSq D query (pointAt ps i)))
        ?_ (pairwise_fst_of_pairLe _ hsortedP) (by simp)
      · have hlenD : ((List.range ps.length).map
            (fun i => distanceSq D query (pointAt ps i))).length =
            P'.length := by
          rw [List.length_map, List.length_range, hpermPA.length_eq, hlenA]
        rw [htakeall]
        have hlenQd : ((P'.mergeSort pairLe).map Prod.fst).length =
            P'.length := by
          rw [List.length_map, List.length_mergeSort]
        rw [hlenQd] at hdec
        have hlenM : (((List.range ps.length).map
            (fun i => distanceSq D query (pointAt ps i))).mergeSort
              (fun a b => decide (a ≤ b))).length = P'.length := by
          rw [List.length_mergeSort, hlenD]
        have hMfull : (((List.range ps.length).map
            (fun i => distanceSq D query (pointAt ps i))).mergeSort
              (fun a b => decide (a ≤ b))).take P'.length =
            ((List.range ps.length).map
              (fun i => distanceSq D query (pointAt ps i))).mergeSort
                (fun a b => decide (a ≤ b)) :=
          List.take_of_length_le (le_of_eq hlenM)
        rw [hMfull] at hdec
        rw [List.take_of_length_le (by rw [hlenM]; omega)]
        exact hdec.symm
      · rw [List.append_nil]
        refine hallDperm.trans ?_
        refine (hpermPA.map Prod.fst).symm.trans ?_
        exact ((List.mergeSort_perm P' pairLe).map Prod.fst).symm

/-- C2 witness: the theorem applied to the spec's concrete scenario
(4 points in 2-D, k = 2). -/
theorem C2_witness :
    (0 < 2 ∧ 0 < 2) ∧
      ∃ res : List ℕ,
        knnSearch 2 [[0, 0], [1, 1], [2, 2], [9, 9]] [2, 2] 2 = some res ∧
        res.length =
          min 2 (List.length
            ([[0, 0], [1, 1], [2, 2], [9, 9]] : List (List ℚ))) ∧
        res.Nodup ∧
        (∀ i ∈ res, i < List.length
          ([[0, 0], [1, 1], [2, 2], [9, 9]] : List (List ℚ))) ∧
        res.map (fun i => distanceSq 2 [2, 2]
            (pointAt [[0, 0], [1, 1], [2, 2], [9, 9]] i)) =
          (((List.range (List.length
              ([[0, 0], [1, 1], [2, 2], [9, 9]] : List (List ℚ)))).map
            (fun i => distanceSq 2 [2, 2]
              (pointAt [[0, 0], [1, 1], [2, 2], [9, 9]] i))).mergeSort
            (fun a b => decide (a ≤ b))).take 2 :=
  ⟨⟨by decide, by decide⟩,
    C2_knnSearch_returns_k_smallest_ascending 2
      [[0, 0], [1, 1], [2, 2], [9, 9]] [2, 2] 2 (by decide) (by decide)⟩

end kdt
